import Mathlib

/-
Verification of the extraction engine of patent_xml_to_csv.py.

The Python source is shallowly embedded as executable Lean definitions:

  * XML element trees (as produced by lxml) are the mutual inductive
    Elem / ElemList: an element has a tag, attributes, leading text, a
    tail (the text between its end tag and the next sibling, stored on
    the element exactly as lxml does) and a list of children.
  * ElementPath search (tree.findall("./" + path)) is modelled for the
    child-axis paths the configuration files use: a path is the list of
    tag names along the child axis, and matches are returned in
    document order.
  * get_text, get_pk, process_path, process_doc, convert,
    get_fieldnames and yield_xml_doc are translated one to one; the
    recursion of process_path is driven by a fuel parameter so that all
    definitions are structural (the Python recursion terminates because
    the configuration tree is finite; theorems about produced records
    are stated for every fuel, and concrete runs use a sufficient one).
  * Python dicts (records, the table set, the fieldnames accumulator)
    are association lists with Python's assignment semantics: an
    existing key keeps its position, a new key is appended.
  * Exceptions (AssertionError in process_path / get_pk, XMLSyntaxError
    from the external parser) are an error value threaded through the
    computation; mutations performed before the raise survive, as they
    do in Python.
-/

/- ===== XML document trees (the data model produced by lxml) ===== -/

mutual
/-- An XML element: tag, attributes, text (before the first child), tail
(text after the element's end tag, stored on the element as in lxml) and
children. -/
inductive Elem where
  | mk (tag : String) (attrs : List (String × String)) (text : String)
       (tail : String) (children : ElemList)
/-- A list of sibling elements (a separate inductive so that all
recursions over trees are structural). -/
inductive ElemList where
  | enil : ElemList
  | econs (e : Elem) (rest : ElemList) : ElemList
end

/-- The tag of an element. -/
def Elem.tag : Elem → String
  | .mk t _ _ _ _ => t

/-- The tail text of an element (the text between its end tag and the
next sibling). -/
def Elem.tail : Elem → String
  | .mk _ _ _ tl _ => tl

/-- The children of an element. -/
def Elem.children : Elem → ElemList
  | .mk _ _ _ _ cs => cs

/-- Concatenation of two sibling lists. -/
def ElemList.append : ElemList → ElemList → ElemList
  | .enil, ys => ys
  | .econs x xs, ys => .econs x (ElemList.append xs ys)

mutual
/-- The text serialization of an element without its own tail: its text,
then recursively each child's serialization followed by that child's
tail, in document order.  This is what lxml's tostring(method="text")
produces for the subtree below the element. -/
def innerText : Elem → String
  | .mk _ _ tx _ cs => tx ++ innerTextList cs

/-- Text serialization of a sibling list: each element's inner text
followed by its tail. -/
def innerTextList : ElemList → String
  | .enil => ""
  | .econs e rest => innerText e ++ e.tail ++ innerTextList rest
end

/-- Models etree.tostring(elem, method="text", encoding="unicode") as
called by get_text.  lxml's tostring keeps with_tail=True by default, so
the element's own tail text is included after the subtree's text. -/
def tostringText (e : Elem) : String :=
  innerText e ++ e.tail

/- ===== the Text Normalizer (get_text) ===== -/

/-- Python's regex class \s restricted to the ASCII whitespace
characters (space, tab, newline, carriage return, vertical tab, form
feed); the documents at hand contain no exotic Unicode whitespace. -/
def isPyWs (c : Char) : Bool :=
  c = ' ' || c = '\t' || c = '\n' || c = '\r' || c = '\x0b' || c = '\x0c'

/-- re.sub(r"\s+", " ", s): every maximal run of whitespace becomes one
space.  The flag records whether the previous character was whitespace
(i.e. whether we are inside a run that already emitted its space). -/
def collapseRuns : Bool → List Char → List Char
  | _, [] => []
  | prevWs, c :: cs =>
    if isPyWs c then
      if prevWs then collapseRuns true cs else ' ' :: collapseRuns true cs
    else c :: collapseRuns false cs

/-- str.strip(): remove leading and trailing whitespace. -/
def stripEnds (l : List Char) : List Char :=
  ((l.dropWhile isPyWs).reverse.dropWhile isPyWs).reverse

/-- re.sub(r"\s+", " ", s).strip() as applied by get_text. -/
def pyNormalize (s : String) : String :=
  String.mk (stripEnds (collapseRuns false s.toList))

/-- DocdbToTabular.get_text: whitespace-collapse and strip the text
serialization of the element (which, via lxml's tostring, includes the
element's own tail). -/
def get_text (e : Elem) : String :=
  pyNormalize (tostringText e)

/-- Modelled from the spec (section 4.1), for comparison with get_text:
"given a document element ..., return the concatenation of all
descendant text nodes with every run of whitespace (including newlines)
collapsed to a single space, and leading/trailing whitespace removed",
i.e. the same normalization applied to the subtree's text only, without
the element's tail. -/
def get_text_spec (e : Elem) : String :=
  pyNormalize (innerText e)

/- ===== ElementPath search ===== -/

mutual
/-- elem.findall("./" + path) for a child-axis path: follow the tag
sequence from the context element; matches are produced in document
order.  The empty path returns the context element itself. -/
def findall (e : Elem) (p : List String) : List Elem :=
  match p with
  | [] => [e]
  | t :: ts =>
    match e with
    | .mk _ _ _ _ cs => findallList cs t ts

/-- Search a sibling list for children with the given tag, continuing
with the rest of the path below each hit. -/
def findallList (cs : ElemList) (t : String) (ts : List String) : List Elem :=
  match cs with
  | .enil => []
  | .econs c rest =>
    (if c.tag = t then findall c ts else []) ++ findallList rest t ts
end

/-- The first argument of process_path: either an ElementTree (the whole
parsed document, as passed by process_doc) or an Element (as passed by
the recursion).  Python distinguishes the two by try: tree.getroot()
except AttributeError. -/
inductive XNode where
  | root (doc : Elem)
  | node (e : Elem)

/-- The element set process_path works on: an ElementTree contributes
its root as the sole match (the path is ignored at the top level); an
Element is searched with findall. -/
def resolveElems : XNode → List String → List Elem
  | .root d, _ => [d]
  | .node e, p => findall e p

/-- tree.findall("./" + path) as used by get_pk: on an ElementTree the
search is relative to the root element. -/
def nodeFindall : XNode → List String → List Elem
  | .root d, p => findall d p
  | .node e, p => findall e p

/- ===== decimal rendering (f-string of a table length) ===== -/

/-- The decimal digit characters. -/
def digitChar : Nat → Char
  | 0 => '0' | 1 => '1' | 2 => '2' | 3 => '3' | 4 => '4'
  | 5 => '5' | 6 => '6' | 7 => '7' | 8 => '8' | _ => '9'

/-- Digits of n in base 10, most significant first, prepended to acc;
the fuel bounds the number of divisions. -/
def decDigitsCore : Nat → Nat → List Char → List Char
  | 0, _, acc => acc
  | fuel + 1, n, acc =>
    if n < 10 then digitChar n :: acc
    else decDigitsCore fuel (n / 10) (digitChar (n % 10) :: acc)

/-- The decimal digit list of n (n+1 divisions always suffice). -/
def natToDecL (n : Nat) : List Char :=
  decDigitsCore (n + 1) n []

/-- Python's f"{n}" for a natural number: its decimal numeral. -/
def natToDec (n : Nat) : String :=
  String.mk (natToDecL n)

/-- Numeric value of a digit character. -/
def digitVal (c : Char) : Nat := c.toNat - 48

/-- Value of a big-endian digit list. -/
def decVal : List Char → Nat
  | [] => 0
  | c :: cs => digitVal c * 10 ^ cs.length + decVal cs

/- ===== association lists with Python dict semantics ===== -/

/-- d[k] = v on a Python dict: an existing key keeps its position and
gets the new value; a new key is appended at the end. -/
def setAssoc {α : Type} : List (String × α) → String → α → List (String × α)
  | [], k, v => [(k, v)]
  | (k', v') :: r, k, v =>
    if k' = k then (k', v) :: r else (k', v') :: setAssoc r k v

/-- d.get(k): the value of the first (and only) binding of k. -/
def getAssoc {α : Type} : List (String × α) → String → Option α
  | [], _ => none
  | (k', v') :: r, k => if k' = k then some v' else getAssoc r k

/-- d[k] with a default, as a defaultdict lookup. -/
def lookupD {α : Type} (m : List (String × α)) (k : String) (d : α) : α :=
  (getAssoc m k).getD d

/-- The keys of a record, in insertion order. -/
def keysOf {α : Type} (r : List (String × α)) : List String :=
  r.map Prod.fst

/- ===== Python string primitives =====
The engine inspects directives with str.startswith, the "in" operator,
str.split and slicing.  These are given explicit executable definitions
over the character list of the string. -/

/-- s.startswith(p). -/
def strStartsWith (s p : String) : Bool :=
  p.toList.isPrefixOf s.toList

/-- c in s, for a single character. -/
def strContainsChar (s : String) (c : Char) : Bool :=
  s.toList.contains c

/-- str.split(sep) on a one-character separator, on character lists:
splitting the empty string gives [""], and every separator occurrence
opens a new piece. -/
def splitOnCharL (c : Char) : List Char → List (List Char)
  | [] => [[]]
  | x :: xs =>
    let r := splitOnCharL c xs
    if x = c then [] :: r
    else
      match r with
      | [] => [[x]]
      | h :: t => (x :: h) :: t

/-- s.split(":") as a list of strings. -/
def strSplitColon (s : String) : List String :=
  (splitOnCharL ':' s.toList).map String.mk

/-- s[1:]: the string without its first character. -/
def strDrop1 (s : String) : String :=
  String.mk (s.toList.drop 1)

/- ===== the Mapping Model ===== -/

mutual
/-- A mapping node: a scalar binding is a JSON string directive
(isinstance(config, str) in the source); an entity binding is an object
with keys "entity", optional "pk" and "fields".  A pk path that is the
empty string is falsy in Python and behaves as absent, so pk is an
Option.  Sub-paths, like all paths, are modelled as child-axis tag
sequences. -/
inductive Config where
  | scalar (directive : String)
  | entity (name : String) (pk : Option (List String)) (fields : Fields)
/-- The ordered "fields" mapping of an entity binding: sub-path to
sub-node pairs, in configured order. -/
inductive Fields where
  | fnil : Fields
  | fcons (path : List String) (cfg : Config) (rest : Fields) : Fields
end

/-- A record: a Python dict from column name to string value. -/
abbrev Record : Type := List (String × String)

/-- The table set: defaultdict(list) from entity name to record list. -/
abbrev Tables : Type := List (String × List Record)

/-- self.tables[entity].append(record). -/
def appendTable (t : Tables) (n : String) (r : Record) : Tables :=
  setAssoc t n (lookupD t n [] ++ [r])

/-- The exceptions the engine can raise (plus the fuel artifact of the
embedding).  AssertionError carries no msg attribute; XMLSyntaxError
does. -/
inductive PErr where
  | multipleElements
  | pkAssert
  | parseFailure
  | fuelOut
deriving DecidableEq

/-- Python truthiness of an optional string: None and "" are falsy. -/
def truthy : Option String → Bool
  | none => false
  | some s => !(s == "")

/-- DocdbToTabular.get_pk: if a pk path is configured, resolve it with
tree.findall("./" + pk) — relative to the tree argument, not to any
matched element — assert exactly one match and return its text;
otherwise None. -/
def get_pk (tree : XNode) (pk : Option (List String)) : Except PErr (Option String) :=
  match pk with
  | none => .ok none
  | some p =>
    match nodeFindall tree p with
    | [e] => .ok (some (get_text e))
    | _ => .error .pkAssert

/-- "|".join of a list of strings. -/
def joinBar : List String → String
  | [] => ""
  | [s] => s
  | s :: rest => s ++ "|" ++ joinBar rest

/-- f"{parent_entity}_id"; Python would format a missing parent as
"None", which is unreachable from the actual call sites (a truthy
parent_pk is only ever passed together with an entity name). -/
def parentIdKey : Option String → String
  | some s => s ++ "_id"
  | none => "None_id"

/-- The fresh record of one entity-loop iteration, before its fields are
processed: srecord["id"] is the truthy natural key or else the decimal
rendering of the entity table's current length, and the parent link
column is written only when parent_pk is truthy. -/
def initRecord (pkv ppk pe : Option String) (tblLen : Nat) : Record :=
  let r1 : Record :=
    if truthy pkv then setAssoc [] "id" (pkv.getD "")
    else setAssoc [] "id" (natToDec tblLen)
  if truthy ppk then setAssoc r1 (parentIdKey pe) (ppk.getD "") else r1

mutual
/-- DocdbToTabular.process_path.  The fuel decreases on every internal
call and is an embedding artifact only (the Python recursion is finite
because the configuration tree is): fuel exhaustion is reported as the
error fuelOut.  Scalar branch (isinstance(config, str)): everything is
guarded by "if elems:", so with zero matches nothing at all is written;
a "|"-prefixed directive joins the texts of all matches; otherwise
exactly one match is asserted, and then a directive containing ":"
writes the literal split(":")[1] under split(":")[0], else the
directive names the column for the match's text.  Entity branch:
delegates to the loop over matched elements and leaves the caller's
record untouched. -/
def process_path : Nat → XNode → List String → Config → Record →
    Option String → Option String → Tables → Except PErr Record × Tables
  | 0, _, _, _, _, _, _, tables => (.error .fuelOut, tables)
  | fuel + 1, tree, path, cfg, record, pe, ppk, tables =>
    let elems := resolveElems tree path
    match cfg with
    | .scalar d =>
      match elems with
      | [] => (.ok record, tables)
      | e :: restE =>
        if strStartsWith d "|" then
          (.ok (setAssoc record (strDrop1 d) (joinBar ((e :: restE).map get_text))),
           tables)
        else if restE.isEmpty then
          if strContainsChar d ':' then
            (.ok (setAssoc record ((strSplitColon d).headD "")
                    ((strSplitColon d).getD 1 "")), tables)
          else (.ok (setAssoc record d (get_text e)), tables)
        else (.error .multipleElements, tables)
    | .entity n pk fields =>
      match elems_loop fuel tree n pk fields elems pe ppk tables with
      | (.ok _, t') => (.ok record, t')
      | (.error er, t') => (.error er, t')

/-- The "for elem in elems" loop of the entity branch.  Per iteration:
a fresh record; get_pk against the tree argument (recomputed each
iteration, identically); "id" is the truthy natural key or else the
decimal of the entity table's current length; the parent link is
written only when parent_pk is truthy; the fields are processed with
this entity and the natural pk (not the assigned id) as the new parent
context; finally the record is appended. -/
def elems_loop : Nat → XNode → String → Option (List String) → Fields →
    List Elem → Option String → Option String → Tables → Except PErr Unit × Tables
  | 0, _, _, _, _, _, _, _, tables => (.error .fuelOut, tables)
  | fuel + 1, tree, n, pk, fields, elems, pe, ppk, tables =>
    match elems with
    | [] => (.ok (), tables)
    | e :: rest =>
      match get_pk tree pk with
      | .error er => (.error er, tables)
      | .ok pkv =>
        match fields_loop fuel n fields e
            (initRecord pkv ppk pe (lookupD tables n []).length) pkv tables with
        | (.ok r3, t') =>
          elems_loop fuel tree n pk fields rest pe ppk (appendTable t' n r3)
        | (.error er, t') => (.error er, t')

/-- The "for subpath, subconfig in config['fields'].items()" loop:
recurse into process_path with the matched element as the new tree
context. -/
def fields_loop : Nat → String → Fields → Elem → Record → Option String →
    Tables → Except PErr Record × Tables
  | 0, _, _, _, _, _, tables => (.error .fuelOut, tables)
  | fuel + 1, entity, fields, elem, record, pkv, tables =>
    match fields with
    | .fnil => (.ok record, tables)
    | .fcons sp sc rest =>
      match process_path fuel (.node elem) sp sc record (some entity) pkv tables with
      | (.ok r', t') => fields_loop fuel entity rest elem r' pkv t'
      | (.error er, t') => (.error er, t')
end

/-- DocdbToTabular.process_doc's loop over the top-level configuration
entries: each entry gets the parsed tree and a fresh empty record, with
no parent context. -/
def process_doc_entries : List (List String × Config) → Elem → Nat → Tables →
    Except PErr Unit × Tables
  | [], _, _, t => (.ok (), t)
  | (p, c) :: rest, root, fuel, t =>
    match process_path fuel (.root root) p c [] none none t with
    | (.ok _, t') => process_doc_entries rest root fuel t'
    | (.error e, t') => (.error e, t')

/-- One raw document of the batch: its text (used by the diagnostic
regex) and the result of the external lxml parse (none models an
XMLSyntaxError). -/
structure RawDoc where
  text : String
  parsed : Option Elem

/-- DocdbToTabular.process_doc: parse (external), then process every
top-level mapping entry. -/
def process_doc (cfg : List (List String × Config)) (fuel : Nat) (doc : RawDoc)
    (t : Tables) : Except PErr Unit × Tables :=
  match doc.parsed with
  | none => (.error .parseFailure, t)
  | some root => process_doc_entries cfg root fuel t

/-- The literal prefix of the diagnostic regex
r"<B210><DNUM><PDAT>(\d+)<\/PDAT><\/DNUM><\/B210>". -/
def b210Pre : List Char := "<B210><DNUM><PDAT>".toList

/-- The literal suffix of the diagnostic regex. -/
def b210Suf : List Char := "</PDAT></DNUM></B210>".toList

/-- Match the diagnostic regex at one position: the literal prefix, one
or more digits (greedy and maximal, which is equivalent here because
the suffix starts with a non-digit) and the literal suffix. -/
def matchB210At (l : List Char) : Option String :=
  if b210Pre.isPrefixOf l then
    let rest := l.drop b210Pre.length
    let ds := rest.takeWhile Char.isDigit
    if ds.isEmpty then none
    else if b210Suf.isPrefixOf (rest.drop ds.length) then some (String.mk ds)
    else none
  else none

/-- re.search of the diagnostic regex: leftmost match wins. -/
def searchB210L : List Char → Option String
  | [] => none
  | c :: rest =>
    match matchB210At (c :: rest) with
    | some r => some r
    | none => searchB210L rest

/-- re.search(r"<B210><DNUM><PDAT>(\d+)...", doc), returning group 1. -/
def searchB210 (s : String) : Option String := searchB210L s.toList

/-- Whether the caught exception has a msg attribute: XMLSyntaxError
does, AssertionError does not (accessing exc.msg on it raises
AttributeError). -/
def hasMsg : PErr → Bool
  | .parseFailure => true
  | _ => false

/-- An exception escaping the convert loop (the AttributeError raised
inside the except handler) aborts the whole run. -/
inductive BatchErr where
  | attributeError
deriving DecidableEq

/-- DocdbToTabular.convert, per document: on success continue; on a
caught AssertionError / XMLSyntaxError the handler runs
re.search(...).group(1) — None when the B210 pattern is absent, so
.group raises AttributeError — and then logger.warning(..., exc.msg),
which raises AttributeError for an AssertionError; only when both
survive is the warning logged and the loop continued. -/
def convert (cfg : List (List String × Config)) (fuel : Nat) :
    List RawDoc → Tables → Except BatchErr Tables
  | [], t => .ok t
  | d :: rest, t =>
    match process_doc cfg fuel d t with
    | (.ok _, t') => convert cfg fuel rest t'
    | (.error e, t') =>
      match searchB210 d.text with
      | none => .error .attributeError
      | some _ =>
        if hasMsg e then convert cfg fuel rest t'
        else .error .attributeError

/- ===== the Column-Order Resolver (get_fieldnames) ===== -/

/-- The per-table fieldname accumulator (defaultdict(list)). -/
abbrev FieldMap : Type := List (String × List String)

/-- The column a scalar directive contributes in add_fieldnames, which
tests ":" before "|": a directive with ":" contributes split(":")[0], a
"|"-prefixed one its remainder, else itself. -/
def resolverCol (d : String) : String :=
  if strContainsChar d ':' then (strSplitColon d).headD ""
  else if strStartsWith d "|" then strDrop1 d
  else d

/-- The column the same directive actually makes process_path write,
which tests "|" before ":". -/
def engineCol (d : String) : String :=
  if strStartsWith d "|" then strDrop1 d
  else if strContainsChar d ':' then (strSplitColon d).headD ""
  else d

/-- dict.fromkeys(l).keys(): first-occurrence-ordered deduplication. -/
def firstDedupAux (seen : List String) : List String → List String
  | [] => []
  | x :: xs =>
    if x ∈ seen then firstDedupAux seen xs
    else x :: firstDedupAux (x :: seen) xs

/-- list(dict.fromkeys(l).keys()). -/
def firstDedup (l : List String) : List String := firstDedupAux [] l

/-- The seed of an entity binding's fresh accumulator in add_fieldnames:
"id" if it has a pk or a parent, then the parent link if it has a
parent. -/
def baseCols (pk : Option (List String)) (pe : Option String) : List String :=
  (if pk.isSome || pe.isSome then ["id"] else []) ++
  (match pe with | some p => [p ++ "_id"] | none => [])

mutual
/-- The inner add_fieldnames(config, _fieldnames, parent_entity): a
scalar appends its resolved column to the caller's accumulator; an
entity starts a fresh accumulator seeded with "id" (if it has a pk or a
parent) and the parent link (if it has a parent), extends it through
its fields, and merges it into the global entry for its table by
order-preserving deduplication — leaving the caller's accumulator
untouched. -/
def addFieldnames : Config → List String → Option String → FieldMap →
    List String × FieldMap
  | .scalar d, fns, _, fm => (fns ++ [resolverCol d], fm)
  | .entity n pk fields, fns, pe, fm =>
    let res := addFieldList fields (baseCols pk pe) (some n) fm
    (fns, setAssoc res.2 n (firstDedup (lookupD res.2 n [] ++ res.1)))

/-- The loop over config["fields"].values() inside add_fieldnames. -/
def addFieldList : Fields → List String → Option String → FieldMap →
    List String × FieldMap
  | .fnil, fns, _, fm => (fns, fm)
  | .fcons _ c rest, fns, pe, fm =>
    let res := addFieldnames c fns pe fm
    addFieldList rest res.1 pe res.2
end

/-- DocdbToTabular.get_fieldnames: fold add_fieldnames over the
top-level configuration entries, starting from an empty accumulator
each time; depends on the mapping only. -/
def get_fieldnames (cfg : List (List String × Config)) : FieldMap :=
  cfg.foldl (fun fm pc => (addFieldnames pc.2 [] none fm).2) []

/- ===== the document splitter (yield_xml_doc) ===== -/

/-- The line loop of yield_xml_doc: on a line starting with "<?xml",
first yield the accumulated document if it is nonempty, then restart
the accumulator with that line; every other line is appended.  Nothing
is yielded when the file ends. -/
def yield_xml_doc_aux (acc : List String) : List String → List String
  | [] => []
  | l :: ls =>
    if strStartsWith l "<?xml" then
      (if acc.isEmpty then [] else [String.join acc]) ++ yield_xml_doc_aux [l] ls
    else yield_xml_doc_aux (acc ++ [l]) ls

/-- DocdbToTabular.yield_xml_doc on the file's list of lines. -/
def yield_xml_doc (lines : List String) : List String :=
  yield_xml_doc_aux [] lines

/- ===== auxiliary structural notions used by the theorems ===== -/

mutual
/-- All entity (table) names occurring in a mapping subtree. -/
def namesC : Config → List String
  | .scalar _ => []
  | .entity n _ fields => n :: namesF fields

/-- All entity names occurring under a fields list. -/
def namesF : Fields → List String
  | .fnil => []
  | .fcons _ c rest => namesC c ++ namesF rest
end

/-- The record columns a fields list can write at its own level: the
engine-resolved columns of its scalar members (entity members never
touch the caller's record). -/
def scalarColsF : Fields → List String
  | .fnil => []
  | .fcons _ (.scalar d) rest => engineCol d :: scalarColsF rest
  | .fcons _ (.entity _ _ _) rest => scalarColsF rest

/-- The record columns a single mapping node can write into the record
passed to it: the engine-resolved column for a scalar, nothing for an
entity (the entity branch never touches the caller's record). -/
def scalarColsC : Config → List String
  | .scalar d => [engineCol d]
  | .entity _ _ _ => []

mutual
/-- The element with all attributes removed, recursively (used to state
that the Text Normalizer's output never depends on attributes). -/
def eraseAttrs : Elem → Elem
  | .mk t _ tx tl cs => .mk t [] tx tl (eraseAttrsList cs)

/-- Attribute removal on a sibling list. -/
def eraseAttrsList : ElemList → ElemList
  | .enil => .enil
  | .econs e rest => .econs (eraseAttrs e) (eraseAttrsList rest)
end

/-- Pointwise inclusion of fieldname maps: every column recorded for a
table in the first map is recorded for it in the second. -/
def fmLe (a b : FieldMap) : Prop :=
  ∀ nm k, k ∈ lookupD a nm [] → k ∈ lookupD b nm []

/-- All columns of all records of all tables are among the resolved
fieldnames of their table. -/
def tablesOK (F : FieldMap) (t : Tables) : Prop :=
  ∀ p ∈ t, ∀ r ∈ p.2, ∀ k ∈ keysOf r, k ∈ lookupD F p.1 []

mutual
/-- Column coverage of a mapping subtree by a fieldname map F, relative
to the enclosing entity: a scalar's engine-resolved column must be
recorded for the enclosing table; an entity's table must record "id",
the parent link when a parent exists, and cover its fields. -/
def coveredC (F : FieldMap) : Option String → Config → Prop
  | pe, .scalar d => ∀ nm, pe = some nm → engineCol d ∈ lookupD F nm []
  | pe, .entity n _ fields =>
    "id" ∈ lookupD F n [] ∧
    (∀ p, pe = some p → (p ++ "_id") ∈ lookupD F n []) ∧
    coveredF F (some n) fields

/-- Coverage of every member of a fields list. -/
def coveredF (F : FieldMap) : Option String → Fields → Prop
  | _, .fnil => True
  | pe, .fcons _ c rest => coveredC F pe c ∧ coveredF F pe rest
end

mutual
/-- No "|"-prefixed (join-form) directive contains a ":": for such
directives add_fieldnames (which tests ":" first) and process_path
(which tests "|" first) resolve the same column. -/
def joinColonFreeC : Config → Bool
  | .scalar d => !(strStartsWith d "|" && strContainsChar d ':')
  | .entity _ _ fields => joinColonFreeF fields

/-- joinColonFreeC on every member of a fields list. -/
def joinColonFreeF : Fields → Bool
  | .fnil => true
  | .fcons _ c rest => joinColonFreeC c && joinColonFreeF rest
end

/-- A top-level mapping entry that is an entity binding has a configured
pk (nested entities always have a parent, so only top-level ones can
miss the "id" fieldname). -/
def topEntityPk : Config → Bool
  | .scalar _ => true
  | .entity _ pk _ => pk.isSome

/-- The columns the resolver collects from the scalar members of a
fields list, in order. -/
def resolverColsF : Fields → List String
  | .fnil => []
  | .fcons _ (.scalar d) rest => resolverCol d :: resolverColsF rest
  | .fcons _ (.entity _ _ _) rest => resolverColsF rest

/- ===== shared concrete fixtures for counterexamples and witnesses ===== -/

/-- A leaf element with a tag and text only. -/
def leafE (tag text : String) : Elem := .mk tag [] text "" .enil

/-- A sample document root: <doc><id>7</id><title>Widget</title></doc>
(scenario A of the specification). -/
def sampleTree : Elem :=
  .mk "doc" [] "" "" (.econs (leafE "id" "7") (.econs (leafE "title" "Widget") .enil))

/-- The scenario-A mapping: a top-level "doc" entity without pk, with
two plain scalar fields. -/
def sampleCfg : List (List String × Config) :=
  [(["doc"], .entity "doc" none
      (.fcons ["id"] (.scalar "docid") (.fcons ["title"] (.scalar "title") .fnil)))]

/-- A successfully parsing document for batch runs. -/
def sampleDoc : RawDoc := ⟨"<?xml sample", some sampleTree⟩

/- ===== basic lemmas about the embedding primitives ===== -/

theorem digitVal_digitChar {r : Nat} (h : r < 10) :
    digitVal (digitChar r) = r := by
  interval_cases r <;> rfl

theorem decVal_decDigitsCore :
    ∀ (fuel n : Nat) (acc : List Char), n < 10 ^ (fuel + 1) →
      decVal (decDigitsCore (fuel + 1) n acc) =
        n * 10 ^ acc.length + decVal acc := by
  intro fuel
  induction fuel with
  | zero =>
    intro n acc h
    have h10 : n < 10 := by simpa using h
    simp [decDigitsCore, h10, decVal, digitVal_digitChar h10]
  | succ f ih =>
    intro n acc h
    by_cases h10 : n < 10
    · simp [decDigitsCore, h10, decVal, digitVal_digitChar h10]
    · have hdiv : n / 10 < 10 ^ (f + 1) :=
        Nat.div_lt_of_lt_mul (by rw [mul_comm, ← pow_succ]; exact h)
      have hih := ih (n / 10) (digitChar (n % 10) :: acc) hdiv
      conv_lhs => rw [decDigitsCore]
      rw [if_neg h10, hih]
      simp only [List.length_cons, decVal,
        digitVal_digitChar (Nat.mod_lt n (by omega))]
      have hmod : n / 10 * 10 + n % 10 = n := by omega
      calc n / 10 * 10 ^ (acc.length + 1) +
          (n % 10 * 10 ^ acc.length + decVal acc)
          = (n / 10 * 10 + n % 10) * 10 ^ acc.length + decVal acc := by ring
        _ = n * 10 ^ acc.length + decVal acc := by rw [hmod]

theorem decVal_natToDecL (n : Nat) : decVal (natToDecL n) = n := by
  have hlt : n < 10 ^ (n + 1) := by
    calc n < 10 ^ n := Nat.lt_pow_self (by omega) n
    _ ≤ 10 ^ (n + 1) := Nat.pow_le_pow_right (by omega) (by omega)
  have := decVal_decDigitsCore n n [] hlt
  simpa [natToDecL, decVal] using this

theorem natToDec_inj {m n : Nat} (h : natToDec m = natToDec n) : m = n := by
  have hl : natToDecL m = natToDecL n := congrArg String.data h
  have := decVal_natToDecL m
  rw [hl, decVal_natToDecL n] at this
  omega

theorem getAssoc_setAssoc_self {α : Type} (m : List (String × α)) (k : String) (v : α) :
    getAssoc (setAssoc m k v) k = some v := by
  induction m with
  | nil => simp [setAssoc, getAssoc]
  | cons p r ih =>
    obtain ⟨k', v'⟩ := p
    by_cases h : k' = k
    · simp [setAssoc, getAssoc, h]
    · simp [setAssoc, getAssoc, h, ih]

theorem getAssoc_setAssoc_ne {α : Type} (m : List (String × α)) {k k' : String} (v : α)
    (h : k' ≠ k) : getAssoc (setAssoc m k v) k' = getAssoc m k' := by
  induction m with
  | nil => simp [setAssoc, getAssoc, Ne.symm h]
  | cons p r ih =>
    obtain ⟨k0, v0⟩ := p
    by_cases h0 : k0 = k
    · subst h0
      simp [setAssoc, getAssoc, Ne.symm h]
    · simp only [setAssoc, if_neg h0, getAssoc]
      by_cases h1 : k0 = k'
      · simp [h1]
      · simp [h1, ih]

theorem mem_setAssoc {α : Type} {m : List (String × α)} {k : String} {v : α}
    {p : String × α} (h : p ∈ setAssoc m k v) : p = (k, v) ∨ p ∈ m := by
  induction m with
  | nil => simp [setAssoc] at h; simp [h]
  | cons q r ih =>
    obtain ⟨k0, v0⟩ := q
    by_cases h0 : k0 = k
    · subst h0
      simp only [setAssoc, if_pos rfl] at h
      rcases List.mem_cons.mp h with h1 | h1
      · exact Or.inl (by simp [h1])
      · exact Or.inr (List.mem_cons_of_mem _ h1)
    · simp only [setAssoc, if_neg h0] at h
      rcases List.mem_cons.mp h with h1 | h1
      · exact Or.inr (by simp [h1])
      · rcases ih h1 with h2 | h2
        · exact Or.inl h2
        · exact Or.inr (List.mem_cons_of_mem _ h2)

theorem keysOf_setAssoc {α : Type} {r : List (String × α)} {k k' : String} {v : α}
    (h : k' ∈ keysOf (setAssoc r k v)) : k' = k ∨ k' ∈ keysOf r := by
  rcases List.mem_map.mp h with ⟨p, hp, hk⟩
  rcases mem_setAssoc hp with h1 | h1
  · subst h1; exact Or.inl hk.symm
  · exact Or.inr (by exact hk ▸ List.mem_map_of_mem Prod.fst h1)

theorem getAssoc_mem_keysOf {α : Type} {r : List (String × α)} {k : String} {v : α}
    (h : getAssoc r k = some v) : k ∈ keysOf r := by
  induction r with
  | nil => simp [getAssoc] at h
  | cons p rest ih =>
    obtain ⟨k0, v0⟩ := p
    by_cases h0 : k0 = k
    · simp [keysOf, h0]
    · simp only [getAssoc, if_neg h0] at h
      simpa [keysOf] using Or.inr (by simpa [keysOf] using ih h)

theorem getAssoc_mem {α : Type} {m : List (String × α)} {k : String} {v : α}
    (h : getAssoc m k = some v) : (k, v) ∈ m := by
  induction m with
  | nil => simp [getAssoc] at h
  | cons p rest ih =>
    obtain ⟨k0, v0⟩ := p
    by_cases h0 : k0 = k
    · subst h0
      have hv : v0 = v := by simpa [getAssoc] using h
      simp [hv]
    · simp only [getAssoc, if_neg h0] at h
      exact List.mem_cons_of_mem _ (ih h)

theorem lookupD_setAssoc_self {α : Type} (m : List (String × α)) (k : String)
    (v d : α) : lookupD (setAssoc m k v) k d = v := by
  simp [lookupD, getAssoc_setAssoc_self]

theorem lookupD_setAssoc_ne {α : Type} (m : List (String × α)) {k k' : String}
    (v d : α) (h : k' ≠ k) : lookupD (setAssoc m k v) k' d = lookupD m k' d := by
  simp [lookupD, getAssoc_setAssoc_ne m v h]

theorem lookupD_appendTable_self (t : Tables) (n : String) (r : Record) :
    lookupD (appendTable t n r) n [] = lookupD t n [] ++ [r] := by
  simp [appendTable, lookupD_setAssoc_self]

theorem lookupD_appendTable_ne (t : Tables) {n nm : String} (r : Record)
    (h : nm ≠ n) : lookupD (appendTable t n r) nm [] = lookupD t nm [] := by
  simp [appendTable, lookupD_setAssoc_ne _ _ _ h]

theorem eraseAttrs_tail (e : Elem) : (eraseAttrs e).tail = e.tail := by
  cases e with
  | mk t a tx tl cs => rfl

theorem innerText_eraseAttrs_all : ∀ s : Nat,
    (∀ e : Elem, sizeOf e ≤ s → innerText (eraseAttrs e) = innerText e) ∧
    (∀ cs : ElemList, sizeOf cs ≤ s →
      innerTextList (eraseAttrsList cs) = innerTextList cs) := by
  intro s
  induction s using Nat.strong_induction_on with
  | _ s ih =>
    constructor
    · intro e hs
      cases e with
      | mk t a tx tl cs =>
        have hcs : sizeOf cs < s := by
          simp only [Elem.mk.sizeOf_spec] at hs
          omega
        have := (ih (sizeOf cs) hcs).2 cs le_rfl
        simp [eraseAttrs, innerText, this]
    · intro cs hs
      cases cs with
      | enil => rfl
      | econs e rest =>
        have he : sizeOf e < s := by
          simp only [ElemList.econs.sizeOf_spec] at hs
          omega
        have hrest : sizeOf rest < s := by
          simp only [ElemList.econs.sizeOf_spec] at hs
          omega
        have h1 := (ih (sizeOf e) he).1 e le_rfl
        have h2 := (ih (sizeOf rest) hrest).2 rest le_rfl
        simp [eraseAttrsList, innerTextList, h1, h2, eraseAttrs_tail]

/- ===== Claim theorems ===== -/

/-- C10 counterexample: get_text is NOT the normalized concatenation of
the element's descendant text nodes: for the element <a>X</a> followed
by the tail text "tail", lxml's tostring (with_tail defaulting to True)
makes get_text return "Xtail", while the concatenation of descendant
text nodes normalizes to "X". -/
theorem C10_counterexample :
    get_text (Elem.mk "a" [] "X" "tail" .enil) = "Xtail" ∧
    get_text_spec (Elem.mk "a" [] "X" "tail" .enil) = "X" ∧
    get_text (Elem.mk "a" [] "X" "tail" .enil) ≠
      get_text_spec (Elem.mk "a" [] "X" "tail" .enil) := by
  refine ⟨by decide, by decide, by decide⟩

/-- C10 (amended): the Text Normalizer returns the whitespace-collapsed,
trimmed concatenation of the descendant text nodes in document order
followed by the element's own tail text; in particular it agrees with
the spec's contract exactly when the tail is empty, and its output never
depends on element attributes. -/
theorem C10_normalizer :
    (∀ e : Elem, e.tail = "" → get_text e = get_text_spec e) ∧
    (∀ e : Elem, get_text (eraseAttrs e) = get_text e) := by
  constructor
  · intro e h
    simp [get_text, get_text_spec, tostringText, h]
  · intro e
    have h1 := (innerText_eraseAttrs_all (sizeOf e)).1 e le_rfl
    simp [get_text, tostringText, h1, eraseAttrs_tail]

/-- C10 witness: on a tail-free element the two sides agree. -/
theorem C10_witness :
    get_text (leafE "a" " X\n y ") = get_text_spec (leafE "a" " X\n y ") :=
  C10_normalizer.1 (leafE "a" " X\n y ") rfl

theorem yield_aux_length (ls : List String) : ∀ acc, acc ≠ [] →
    (yield_xml_doc_aux acc ls).length =
      ls.countP (fun s => strStartsWith s "<?xml") := by
  induction ls with
  | nil => intro acc _; simp [yield_xml_doc_aux]
  | cons l ls ih =>
    intro acc hacc
    by_cases hl : strStartsWith l "<?xml" = true
    · have hne : acc.isEmpty = false := by
        cases acc with
        | nil => exact absurd rfl hacc
        | cons a as => rfl
      simp [yield_xml_doc_aux, hl, hne, List.countP_cons,
        ih [l] (by simp)]
    · have hl' : strStartsWith l "<?xml" = false := by
        cases hb : strStartsWith l "<?xml" with
        | true => exact absurd hb hl
        | false => rfl
      simp [yield_xml_doc_aux, hl', List.countP_cons,
        ih (acc ++ [l]) (by simp)]

/-- C3 counterexample: a file whose lines contain one "<?xml" header but
start with a preamble line yields 1 document (the preamble), not the
claimed N-1 = 0; the extra document contains no header at all. -/
theorem C3_counterexample :
    yield_xml_doc ["junk", "<?xml a"] = ["junk"] ∧
    (["junk", "<?xml a"].countP (fun s => strStartsWith s "<?xml")) = 1 := by
  refine ⟨by decide, by decide⟩

/-- C3 (amended): when the file's first line begins with "<?xml" (no
preamble), yield_xml_doc yields exactly N-1 documents for N header
lines: each document is yielded only on encountering the next header
line, so the final accumulated document is dropped; lines before the
first header would instead be yielded as one extra spurious document. -/
theorem C3_count (l : String) (ls : List String)
    (h : strStartsWith l "<?xml" = true) :
    (yield_xml_doc (l :: ls)).length =
      (l :: ls).countP (fun s => strStartsWith s "<?xml") - 1 := by
  simp [yield_xml_doc, yield_xml_doc_aux, h, List.countP_cons,
    yield_aux_length ls [l] (by simp)]

/-- C3 witness: a two-document file headed by "<?xml" yields one
document. -/
theorem C3_witness :
    (yield_xml_doc ["<?xml a", "body", "<?xml b"]).length =
      (["<?xml a", "body", "<?xml b"].countP
        (fun s => strStartsWith s "<?xml")) - 1 :=
  C3_count "<?xml a" ["body", "<?xml b"] (by decide)

/-- C5 counterexample: a join-form binding whose path matches zero
elements writes nothing at all — the whole scalar branch is guarded by
"if elems:" — so the record stays empty instead of getting the claimed
empty-string column. -/
theorem C5_counterexample :
    process_path 1 (.node (leafE "doc" "")) ["p"] (.scalar "|text")
      [] none none [] = (.ok [], []) ∧
    getAssoc ([] : Record) "text" = none := by
  exact ⟨rfl, rfl⟩

/-- C5 (amended): a join-form scalar binding joins the normalized texts
of all matched elements with "|" under the unprefixed column, with no
cardinality check and no failure, when at least one element matches;
with zero matches the "if elems:" guard leaves the column unset (no key
is written), rather than writing an empty string. -/
theorem C5_join_semantics (fuel : Nat) (tree : XNode) (path : List String)
    (d : String) (record : Record) (pe ppk : Option String) (t : Tables)
    (hj : strStartsWith d "|" = true) :
    (resolveElems tree path = [] →
      process_path (fuel + 1) tree path (.scalar d) record pe ppk t =
        (.ok record, t)) ∧
    (∀ e restE, resolveElems tree path = e :: restE →
      process_path (fuel + 1) tree path (.scalar d) record pe ppk t =
        (.ok (setAssoc record (strDrop1 d)
          (joinBar ((e :: restE).map get_text))), t)) := by
  constructor
  · intro h
    simp [process_path, h]
  · intro e restE h
    simp [process_path, h, hj]

/-- C5 witness: two matched "p" elements produce the join "A|B"; the
same binding with no matches leaves the record unchanged. -/
theorem C5_witness :
    process_path 1
      (.node (Elem.mk "doc" [] "" ""
        (.econs (leafE "p" "A") (.econs (leafE "p" "B") .enil))))
      ["p"] (.scalar "|text") [] none none [] =
      (.ok [("text", "A|B")], []) := by
  have h := (C5_join_semantics 0
    (.node (Elem.mk "doc" [] "" ""
      (.econs (leafE "p" "A") (.econs (leafE "p" "B") .enil))))
    ["p"] "|text" [] none none [] rfl).2 (leafE "p" "A") [leafE "p" "B"] rfl
  rw [h]
  rfl

/-- C6 counterexample: a literal-form binding name:value writes nothing
when its path matches zero elements (the "if elems:" guard), and raises
the single-match AssertionError when two elements match — refuting both
"writes regardless of how many elements matched, including zero" and
"no single-match assertion applies to literal-form bindings". -/
theorem C6_counterexample :
    process_path 1 (.node (leafE "doc" "")) ["p"] (.scalar "kind:patent")
      [] none none [] = (.ok [], []) ∧
    (process_path 1
      (.node (Elem.mk "doc" [] "" ""
        (.econs (leafE "p" "") (.econs (leafE "p" "") .enil))))
      ["p"] (.scalar "kind:patent") [] none none []).1 =
      .error .multipleElements := by
  exact ⟨rfl, rfl⟩

/-- C6 (amended): a literal-form binding (no "|" prefix, containing
":") writes its fixed literal value under its fixed column only when
exactly one element matches the path: with zero matches the "if elems:"
guard skips it entirely, and with two or more matches the single-match
assertion fails the current document before the ":" form is even
examined; the matched element's content is still ignored. -/
theorem C6_literal_semantics (fuel : Nat) (tree : XNode) (path : List String)
    (d : String) (record : Record) (pe ppk : Option String) (t : Tables)
    (hj : strStartsWith d "|" = false) (hc : strContainsChar d ':' = true) :
    (resolveElems tree path = [] →
      process_path (fuel + 1) tree path (.scalar d) record pe ppk t =
        (.ok record, t)) ∧
    (∀ e, resolveElems tree path = [e] →
      process_path (fuel + 1) tree path (.scalar d) record pe ppk t =
        (.ok (setAssoc record ((strSplitColon d).headD "")
          ((strSplitColon d).getD 1 "")), t)) ∧
    (∀ e1 e2 restE, resolveElems tree path = e1 :: e2 :: restE →
      process_path (fuel + 1) tree path (.scalar d) record pe ppk t =
        (.error .multipleElements, t)) := by
  refine ⟨?_, ?_, ?_⟩
  · intro h
    simp [process_path, h]
  · intro e h
    simp [process_path, h, hj, hc]
  · intro e1 e2 restE h
    simp [process_path, h, hj]

/-- C6 witness: with exactly one match the literal is written and the
element's content is ignored. -/
theorem C6_witness :
    process_path 1
      (.node (Elem.mk "doc" [] "" "" (.econs (leafE "p" "ignored") .enil)))
      ["p"] (.scalar "kind:patent") [] none none [] =
      (.ok [("kind", "patent")], []) := by
  have h := (C6_literal_semantics 0
    (.node (Elem.mk "doc" [] "" "" (.econs (leafE "p" "ignored") .enil)))
    ["p"] "kind:patent" [] none none [] rfl rfl).2.1 (leafE "p" "ignored") rfl
  rw [h]
  rfl

/-- C9 counterexample: a plain-form binding matching two elements raises
the document-scoped AssertionError, but "only that document is aborted"
is false: the batch driver's handler evaluates exc.msg, which
AssertionError lacks, so the whole batch aborts — the same batch without
the offending document processes its remaining document fine. -/
theorem C9_counterexample :
    convert [(["x"], .entity "doc" none (.fcons ["p"] (.scalar "val") .fnil))] 9
      [⟨"<B210><DNUM><PDAT>9</PDAT></DNUM></B210>",
        some (Elem.mk "d" [] "" ""
          (.econs (leafE "p" "x") (.econs (leafE "p" "y") .enil)))⟩,
       sampleDoc] [] = .error .attributeError ∧
    convert [(["x"], .entity "doc" none (.fcons ["p"] (.scalar "val") .fnil))] 9
      [sampleDoc] [] = .ok [("doc", [[("id", "0")]])] := by
  exact ⟨rfl, rfl⟩

/-- C9 (amended): a plain-form scalar binding leaves the column unset on
zero matches, writes the single match's normalized text on exactly one,
and raises the document-scoped AssertionError on two or more, aborting
the current document's processing; however, because AssertionError has
no msg attribute, the batch driver's diagnostic handler itself then
raises AttributeError, so in fact the entire batch aborts, not only that
document. -/
theorem C9_plain_semantics (fuel : Nat) (tree : XNode) (path : List String)
    (d : String) (record : Record) (pe ppk : Option String) (t : Tables)
    (hj : strStartsWith d "|" = false) (hc : strContainsChar d ':' = false) :
    (resolveElems tree path = [] →
      process_path (fuel + 1) tree path (.scalar d) record pe ppk t =
        (.ok record, t)) ∧
    (∀ e, resolveElems tree path = [e] →
      process_path (fuel + 1) tree path (.scalar d) record pe ppk t =
        (.ok (setAssoc record d (get_text e)), t)) ∧
    (∀ e1 e2 restE, resolveElems tree path = e1 :: e2 :: restE →
      process_path (fuel + 1) tree path (.scalar d) record pe ppk t =
        (.error .multipleElements, t)) ∧
    (∀ cfg f doc rest t0 er t1, process_doc cfg f doc t0 = (.error er, t1) →
      hasMsg er = false →
      convert cfg f (doc :: rest) t0 = .error .attributeError) := by
  refine ⟨?_, ?_, ?_, ?_⟩
  · intro h
    simp [process_path, h]
  · intro e h
    simp [process_path, h, hj, hc]
  · intro e1 e2 restE h
    simp [process_path, h, hj]
  · intro cfg f doc rest t0 er t1 hpd hmsg
    simp only [convert, hpd]
    cases hs : searchB210 doc.text with
    | none => rfl
    | some pid => simp [hmsg]

/-- C9 witness: one match writes the normalized text under the plain
column. -/
theorem C9_witness :
    process_path 1
      (.node (Elem.mk "doc" [] "" "" (.econs (leafE "p" " v ") .enil)))
      ["p"] (.scalar "val") [] none none [] = (.ok [("val", "v")], []) := by
  have h := (C9_plain_semantics 0
    (.node (Elem.mk "doc" [] "" "" (.econs (leafE "p" " v ") .enil)))
    ["p"] "val" [] none none [] rfl rfl).2.1 (leafE "p" " v ") rfl
  rw [h]
  rfl

/-- C2: demonstration of the handler bug at a concrete failing input.
The claim says a per-document failure is always converted to a warning
and the batch continues; in fact a document that fails to parse and
lacks the <B210><DNUM><PDAT>...</...> identifier makes the handler call
.group(1) on None, raising AttributeError and aborting the whole run —
the following good document is never processed — while the same good
document alone (or the same failure with the identifier present, where
XMLSyntaxError does carry msg) produces the expected table. -/
theorem C2_handler_crash :
    convert sampleCfg 9 [⟨"no identifier here", none⟩, sampleDoc] [] =
      .error .attributeError ∧
    convert sampleCfg 9 [sampleDoc] [] =
      .ok [("doc", [[("id", "0"), ("docid", "7"), ("title", "Widget")]])] ∧
    convert sampleCfg 9
      [⟨"<B210><DNUM><PDAT>7</PDAT></DNUM></B210>", none⟩, sampleDoc] [] =
      .ok [("doc", [[("id", "0"), ("docid", "7"), ("title", "Widget")]])] := by
  exact ⟨rfl, rfl, rfl⟩

theorem getAssoc_initRecord_id (pkv ppk pe : Option String) (L : Nat)
    (hlink : truthy ppk = true → parentIdKey pe ≠ "id") :
    getAssoc (initRecord pkv ppk pe L) "id" =
      some (if truthy pkv then pkv.getD "" else natToDec L) := by
  by_cases hp : truthy ppk = true
  · by_cases hk : truthy pkv = true
    · simp [initRecord, hp, hk, getAssoc_setAssoc_ne _ _ (Ne.symm (hlink hp)),
        getAssoc_setAssoc_self]
    · simp [initRecord, hp, hk, getAssoc_setAssoc_ne _ _ (Ne.symm (hlink hp)),
        getAssoc_setAssoc_self]
  · by_cases hk : truthy pkv = true
    · simp [initRecord, hp, hk, getAssoc_setAssoc_self]
    · simp [initRecord, hp, hk, getAssoc_setAssoc_self]

theorem getAssoc_initRecord_link (pkv ppk pe : Option String) (L : Nat)
    (hp : truthy ppk = true) :
    getAssoc (initRecord pkv ppk pe L) (parentIdKey pe) = some (ppk.getD "") := by
  simp [initRecord, hp, getAssoc_setAssoc_self]

theorem scalarColsC_scalar_not_mem {k d : String}
    (h : k ∉ scalarColsC (.scalar d)) : k ≠ engineCol d := by
  simp [scalarColsC] at h
  exact h

theorem scalarColsF_cons_not_mem {k : String} {sp : List String} {sc : Config}
    {rest : Fields} (h : k ∉ scalarColsF (.fcons sp sc rest)) :
    k ∉ scalarColsC sc ∧ k ∉ scalarColsF rest := by
  cases sc with
  | scalar d =>
    simp [scalarColsF, scalarColsC] at h ⊢
    tauto
  | entity n pk fields =>
    simp [scalarColsF, scalarColsC] at h ⊢
    exact h

theorem namesF_cons_not_mem {nm : String} {sp : List String} {sc : Config}
    {rest : Fields} (h : nm ∉ namesF (.fcons sp sc rest)) :
    nm ∉ namesC sc ∧ nm ∉ namesF rest := by
  simp [namesF] at h
  tauto

/-- The scalar branch of process_path never touches the table set. -/
theorem process_path_scalar_tables (f : Nat) (tree : XNode) (path : List String)
    (d : String) (record : Record) (pe ppk : Option String) (t : Tables) :
    (process_path (f + 1) tree path (.scalar d) record pe ppk t).2 = t := by
  simp only [process_path]
  cases resolveElems tree path with
  | nil => rfl
  | cons e restE =>
    by_cases hj : strStartsWith d "|"
    · simp [hj]
    · by_cases hre : restE.isEmpty
      · by_cases hcc : strContainsChar d ':'
        · simp [hj, hre, hcc]
        · simp [hj, hre, hcc]
      · simp [hj, hre]

/-- The scalar branch writes at most its engine-resolved column into the
record. -/
theorem process_path_scalar_keys (f : Nat) (tree : XNode) (path : List String)
    (d : String) (record : Record) (pe ppk : Option String) (t : Tables)
    (r' : Record) (k : String) (hk : k ≠ engineCol d)
    (h : (process_path (f + 1) tree path (.scalar d) record pe ppk t).1 = .ok r') :
    getAssoc r' k = getAssoc record k := by
  simp only [process_path] at h
  cases hE : resolveElems tree path with
  | nil =>
    rw [hE] at h
    simp at h
    rw [← h]
  | cons e restE =>
    rw [hE] at h
    by_cases hj : strStartsWith d "|"
    · simp [hj] at h
      rw [← h]
      refine getAssoc_setAssoc_ne _ _ ?_
      simpa [engineCol, hj] using hk
    · by_cases hre : restE.isEmpty
      · by_cases hcc : strContainsChar d ':'
        · simp [hj, hre, hcc] at h
          rw [← h]
          refine getAssoc_setAssoc_ne _ _ ?_
          simpa [engineCol, hj, hcc] using hk
        · simp [hj, hre, hcc] at h
          rw [← h]
          refine getAssoc_setAssoc_ne _ _ ?_
          simpa [engineCol, hj, hcc] using hk
      · simp [hj, hre] at h

/-- Structural facts about the engine, by one induction on the fuel:
(path) process_path only appends to tables of entity names occurring in
its mapping node, and on success writes at most its scalar columns into
the caller's record; (elems) the entity loop only touches its own table
and the tables of nested entity names; (fields) ditto for the fields
loop, which, on success, writes at most the fields' scalar columns into
the record it threads. -/
theorem engine_master : ∀ fuel : Nat,
    (∀ tree path cfg record pe ppk t,
      (∀ nm, nm ∉ namesC cfg →
        lookupD (process_path fuel tree path cfg record pe ppk t).2 nm [] =
          lookupD t nm []) ∧
      (∀ r' k, (process_path fuel tree path cfg record pe ppk t).1 = .ok r' →
        k ∉ scalarColsC cfg → getAssoc r' k = getAssoc record k)) ∧
    (∀ tree n pk fields elems pe ppk t nm, nm ≠ n → nm ∉ namesF fields →
      lookupD (elems_loop fuel tree n pk fields elems pe ppk t).2 nm [] =
        lookupD t nm []) ∧
    (∀ entity fields elem record pkv t,
      (∀ nm, nm ∉ namesF fields →
        lookupD (fields_loop fuel entity fields elem record pkv t).2 nm [] =
          lookupD t nm []) ∧
      (∀ r' k, (fields_loop fuel entity fields elem record pkv t).1 = .ok r' →
        k ∉ scalarColsF fields → getAssoc r' k = getAssoc record k)) := by
  intro fuel
  induction fuel with
  | zero =>
    refine ⟨?_, ?_, ?_⟩
    · intro tree path cfg record pe ppk t
      refine ⟨fun nm _ => rfl, fun r' k h _ => ?_⟩
      simp [process_path] at h
    · intro tree n pk fields elems pe ppk t nm _ _
      rfl
    · intro entity fields elem record pkv t
      refine ⟨fun nm _ => rfl, fun r' k h _ => ?_⟩
      simp [fields_loop] at h
  | succ f ih =>
    obtain ⟨ihP, ihE, ihF⟩ := ih
    refine ⟨?_, ?_, ?_⟩
    · -- process_path (f+1)
      intro tree path cfg record pe ppk t
      cases cfg with
      | scalar d =>
        refine ⟨fun nm _ => ?_, fun r' k h hk => ?_⟩
        · rw [process_path_scalar_tables]
        · exact process_path_scalar_keys f tree path d record pe ppk t r' k
            (scalarColsC_scalar_not_mem hk) h
      | entity n pk fields =>
        constructor
        · intro nm hnm
          have hn : nm ≠ n := by
            intro hx
            exact hnm (by simp [namesC, hx])
          have hnf : nm ∉ namesF fields := by
            intro hx
            exact hnm (by simp [namesC, hx])
          simp only [process_path]
          rcases hel : elems_loop f tree n pk fields (resolveElems tree path)
              pe ppk t with ⟨res1, t1⟩
          have ht1 : lookupD t1 nm [] = lookupD t nm [] := by
            have := ihE tree n pk fields (resolveElems tree path) pe ppk t nm hn hnf
            rw [hel] at this
            exact this
          cases res1 with
          | ok u => exact ht1
          | error er => exact ht1
        · intro r' k h _
          simp only [process_path] at h
          rcases hel : elems_loop f tree n pk fields (resolveElems tree path)
              pe ppk t with ⟨res1, t1⟩
          rw [hel] at h
          cases res1 with
          | ok u =>
            simp at h
            rw [← h]
          | error er => simp at h
    · -- elems_loop (f+1)
      intro tree n pk fields elems pe ppk t nm hn hnm
      cases elems with
      | nil => rfl
      | cons e rest =>
        rcases hpk : get_pk tree pk with er | pkv
        · simp [elems_loop, hpk]
        · simp only [elems_loop, hpk]
          rcases hfl : fields_loop f n fields e
              (initRecord pkv ppk pe (lookupD t n []).length) pkv t
            with ⟨res1, t1⟩
          have ht1 : lookupD t1 nm [] = lookupD t nm [] := by
            have := (ihF n fields e
              (initRecord pkv ppk pe (lookupD t n []).length) pkv t).1 nm hnm
            rw [hfl] at this
            exact this
          cases res1 with
          | ok r3 =>
            show lookupD
              (elems_loop f tree n pk fields rest pe ppk (appendTable t1 n r3)).2
              nm [] = lookupD t nm []
            rw [ihE tree n pk fields rest pe ppk (appendTable t1 n r3) nm hn hnm,
              lookupD_appendTable_ne t1 r3 hn, ht1]
          | error er => exact ht1
    · -- fields_loop (f+1)
      intro entity fields elem record pkv t
      cases fields with
      | fnil =>
        refine ⟨fun nm _ => rfl, fun r' k h _ => ?_⟩
        simp [fields_loop] at h
        rw [← h]
      | fcons sp sc rest =>
        constructor
        · intro nm hnm
          obtain ⟨hnmC, hnmF⟩ := namesF_cons_not_mem hnm
          simp only [fields_loop]
          rcases hpp : process_path f (.node elem) sp sc record (some entity) pkv t
            with ⟨res1, t1⟩
          have ht1 : lookupD t1 nm [] = lookupD t nm [] := by
            have := (ihP (.node elem) sp sc record (some entity) pkv t).1 nm hnmC
            rw [hpp] at this
            exact this
          cases res1 with
          | ok r1 =>
            show lookupD (fields_loop f entity rest elem r1 pkv t1).2 nm [] =
              lookupD t nm []
            rw [(ihF entity rest elem r1 pkv t1).1 nm hnmF, ht1]
          | error er => exact ht1
        · intro r' k h hk
          obtain ⟨hkC, hkF⟩ := scalarColsF_cons_not_mem hk
          simp only [fields_loop] at h
          rcases hpp : process_path f (.node elem) sp sc record (some entity) pkv t
            with ⟨res1, t1⟩
          rw [hpp] at h
          cases res1 with
          | ok r1 =>
            have h1 : getAssoc r1 k = getAssoc record k := by
              have := (ihP (.node elem) sp sc record (some entity) pkv t).2 r1 k
              rw [hpp] at this
              exact this rfl hkC
            have h2 : getAssoc r' k = getAssoc r1 k := by
              have := (ihF entity rest elem r1 pkv t1).2 r' k
              exact this h hkF
            rw [h2, h1]
          | error er => simp at h

/-- Characterization of one entity binding's loop over its matched
elements, on success: when no nested binding targets the same table, the
entity's table is extended by exactly one record per matched element, in
match order; each record's "id" is the (shared) natural key when that is
truthy and the decimal rendering of the running table length otherwise,
and each record carries the parent-link column with the parent's pk
exactly when parent_pk is truthy — provided no scalar field of the
binding overwrites those columns. -/
theorem elems_loop_spec :
    ∀ (elems : List Elem) (fuel : Nat) (tree : XNode) (n : String)
      (pk : Option (List String)) (fields : Fields) (pe ppk : Option String)
      (t t' : Tables),
      elems_loop fuel tree n pk fields elems pe ppk t = (.ok (), t') →
      n ∉ namesF fields →
      ∃ newRecs : List Record,
        lookupD t' n [] = lookupD t n [] ++ newRecs ∧
        newRecs.length = elems.length ∧
        ∀ pkv, get_pk tree pk = .ok pkv →
          ∀ i (hi : i < newRecs.length),
            (("id" ∉ scalarColsF fields) →
              (truthy ppk = true → parentIdKey pe ≠ "id") →
              getAssoc (newRecs.get ⟨i, hi⟩) "id" =
                some (if truthy pkv then pkv.getD ""
                      else natToDec ((lookupD t n []).length + i))) ∧
            (truthy ppk = true → parentIdKey pe ∉ scalarColsF fields →
              getAssoc (newRecs.get ⟨i, hi⟩) (parentIdKey pe) =
                some (ppk.getD "")) := by
  intro elems
  induction elems with
  | nil =>
    intro fuel tree n pk fields pe ppk t t' h hn
    cases fuel with
    | zero => simp [elems_loop] at h
    | succ f =>
      simp only [elems_loop] at h
      injection h with h1 h2
      refine ⟨[], ?_, rfl, ?_⟩
      · rw [← h2]
        simp
      · intro pkv _ i hi
        exact absurd hi (by simp)
  | cons e rest ih =>
    intro fuel tree n pk fields pe ppk t t' h hn
    cases fuel with
    | zero => simp [elems_loop] at h
    | succ f =>
      rcases hpk : get_pk tree pk with er | pkv0
      · simp [elems_loop, hpk] at h
      · simp only [elems_loop, hpk] at h
        rcases hfl : fields_loop f n fields e
            (initRecord pkv0 ppk pe (lookupD t n []).length) pkv0 t
          with ⟨res1, t1⟩
        rw [hfl] at h
        cases res1 with
        | error er => simp at h
        | ok r3 =>
          have hT1 : lookupD t1 n [] = lookupD t n [] := by
            have := ((engine_master f).2.2 n fields e
              (initRecord pkv0 ppk pe (lookupD t n []).length) pkv0 t).1 n hn
            rw [hfl] at this
            exact this
          have hr3 : ∀ k, k ∉ scalarColsF fields →
              getAssoc r3 k =
                getAssoc (initRecord pkv0 ppk pe (lookupD t n []).length) k := by
            intro k hk
            have := ((engine_master f).2.2 n fields e
              (initRecord pkv0 ppk pe (lookupD t n []).length) pkv0 t).2 r3 k
            rw [hfl] at this
            exact this rfl hk
          obtain ⟨newRecs', hlook, hlen, hprops⟩ :=
            ih f tree n pk fields pe ppk (appendTable t1 n r3) t' h hn
          have happ : lookupD (appendTable t1 n r3) n [] =
              lookupD t n [] ++ [r3] := by
            rw [lookupD_appendTable_self, hT1]
          refine ⟨r3 :: newRecs', ?_, by simp [hlen], ?_⟩
          · rw [hlook, happ]
            simp
          · intro pkv hpkv i hi
            injection hpkv with hpkv
            subst hpkv
            cases i with
            | zero =>
              constructor
              · intro hsc hlink
                have := hr3 "id" hsc
                simp only [List.get] at *
                rw [this, getAssoc_initRecord_id pkv0 ppk pe _ hlink]
                simp
              · intro hp hsc
                have := hr3 (parentIdKey pe) hsc
                simp only [List.get] at *
                rw [this, getAssoc_initRecord_link pkv0 ppk pe _ hp]
            | succ i =>
              have hi' : i < newRecs'.length := by
                simpa using hi
              have hbase : (lookupD (appendTable t1 n r3) n []).length =
                  (lookupD t n []).length + 1 := by
                rw [happ]
                simp
              obtain ⟨hid, hlink⟩ := hprops pkv0 hpk i hi'
              constructor
              · intro hsc hlk
                have := hid hsc hlk
                rw [hbase] at this
                have harith : (lookupD t n []).length + 1 + i =
                    (lookupD t n []).length + (i + 1) := by omega
                rw [harith] at this
                simpa using this
              · intro hp hsc
                have := hlink hp hsc
                simpa using this

theorem get_pk_not_single (tree : XNode) (pkp : List String)
    (h : ∀ epk, nodeFindall tree pkp ≠ [epk]) :
    get_pk tree (some pkp) = .error .pkAssert := by
  cases hl : nodeFindall tree pkp with
  | nil => simp [get_pk, hl]
  | cons a as =>
    cases as with
    | nil => exact absurd hl (h a)
    | cons b bs => simp [get_pk, hl]

theorem get_pk_single (tree : XNode) (pkp : List String) (epk : Elem)
    (h : nodeFindall tree pkp = [epk]) :
    get_pk tree (some pkp) = .ok (some (get_text epk)) := by
  simp [get_pk, h]

/-- C1 counterexample: a child entity nested under a parent entity with
no configured pk produces a child record with NO doc_id column at all:
the engine passes the natural pk (None here) to the recursion, not the
parent record's synthetic id "0", and the "if parent_pk:" guard then
skips the link entirely. -/
theorem C1_counterexample :
    (process_doc_entries
      [(["doc"], .entity "doc" none (.fcons ["c"] (.entity "claim" none .fnil) .fnil))]
      (Elem.mk "doc" [] "" "" (.econs (leafE "c" "") .enil)) 9 []).2 =
      [("claim", [[("id", "0")]]), ("doc", [[("id", "0")]])] ∧
    getAssoc ([("id", "0")] : Record) "doc_id" = none := by
  exact ⟨rfl, rfl⟩

/-- C1 (amended): the engine passes the parent's natural pk — not the
assigned record id — into the recursion, so a child record carries the
`<parent_entity>_id` column exactly when that natural pk is truthy
(configured, single match, nonempty text); in that case (a) every record
a child entity binding appends to its own table carries the parent-link
column holding the parent's pk, established in the record before it is
appended, and (b) every record the parent binding itself appends has id
equal to that same pk, so the link does equal the parent's id.  When the
parent's id is synthetic (pk absent or empty text) children get no
parent-id column at all.  The hypotheses exclude a nested binding
reusing the same table name and a scalar field overwriting the id or
link column. -/
theorem C1_parent_link :
    (∀ fuel tree n pk fields elems ent p t t',
      elems_loop fuel tree n pk fields elems (some ent) (some p) t = (.ok (), t') →
      p ≠ "" →
      n ∉ namesF fields →
      (ent ++ "_id") ∉ scalarColsF fields →
      ∃ newRecs, lookupD t' n [] = lookupD t n [] ++ newRecs ∧
        ∀ r ∈ newRecs, getAssoc r (ent ++ "_id") = some p) ∧
    (∀ fuel tree n pkp fields elems pe ppk t t' p,
      elems_loop fuel tree n (some pkp) fields elems pe ppk t = (.ok (), t') →
      get_pk tree (some pkp) = .ok (some p) →
      p ≠ "" →
      n ∉ namesF fields →
      "id" ∉ scalarColsF fields →
      (truthy ppk = true → parentIdKey pe ≠ "id") →
      ∃ newRecs, lookupD t' n [] = lookupD t n [] ++ newRecs ∧
        ∀ r ∈ newRecs, getAssoc r "id" = some p) := by
  constructor
  · intro fuel tree n pk fields elems ent p t t' h hp hn hsc
    obtain ⟨newRecs, hlook, hlen, hprops⟩ :=
      elems_loop_spec elems fuel tree n pk fields (some ent) (some p) t t' h hn
    refine ⟨newRecs, hlook, ?_⟩
    intro r hr
    obtain ⟨⟨i, hi⟩, hget⟩ := List.mem_iff_get.mp hr
    cases elems with
    | nil =>
      rw [List.length_nil] at hlen
      omega
    | cons e rest' =>
      cases fuel with
      | zero => simp [elems_loop] at h
      | succ f =>
        rcases hpk : get_pk tree pk with er | pkv
        · simp [elems_loop, hpk] at h
        · have htr : truthy (some p) = true := by
            simp [truthy, hp]
          have := (hprops pkv hpk i hi).2 htr
            (by simpa [parentIdKey] using hsc)
          rw [hget] at this
          simpa [parentIdKey] using this
  · intro fuel tree n pkp fields elems pe ppk t t' p h hpk hp hn hsc hlink
    obtain ⟨newRecs, hlook, hlen, hprops⟩ :=
      elems_loop_spec elems fuel tree n (some pkp) fields pe ppk t t' h hn
    refine ⟨newRecs, hlook, ?_⟩
    intro r hr
    obtain ⟨⟨i, hi⟩, hget⟩ := List.mem_iff_get.mp hr
    have htr : truthy (some p) = true := by
      simp [truthy, hp]
    have := (hprops (some p) hpk i hi).1 hsc hlink
    rw [hget] at this
    simpa [htr] using this

/-- C1 witness: a child binding invoked under a parent with truthy
natural pk "P7" produces its record with doc_id = "P7". -/
theorem C1_witness :
    ∃ newRecs,
      lookupD [("claim", [[("id", "0"), ("doc_id", "P7")]])] "claim" [] =
        lookupD ([] : Tables) "claim" [] ++ newRecs ∧
      ∀ r ∈ newRecs, getAssoc r ("doc" ++ "_id") = some "P7" :=
  C1_parent_link.1 5 (.node (leafE "d" "")) "claim" none .fnil [leafE "c" ""]
    "doc" "P7" [] [("claim", [[("id", "0"), ("doc_id", "P7")]])] rfl
    (by decide) (by decide) (by decide)

/-- C4 counterexample: for a nested entity binding with pk "cid", the pk
is resolved against the tree context passed to process_path (here the
parent doc element, whose sole direct cid child has text "P"), not
against each matched claim element (whose own cid texts are "A" and
"B"): both produced claim records get id "P". -/
theorem C4_counterexample :
    (process_doc_entries
      [(["x"], .entity "doc" none
        (.fcons ["claim"] (.entity "claim" (some ["cid"]) .fnil) .fnil))]
      (Elem.mk "doc" [] "" ""
        (.econs (leafE "cid" "P")
        (.econs (Elem.mk "claim" [] "" "" (.econs (leafE "cid" "A") .enil))
        (.econs (Elem.mk "claim" [] "" "" (.econs (leafE "cid" "B") .enil))
          .enil))))
      9 []).2 =
      [("claim", [[("id", "P")], [("id", "P")]]), ("doc", [[("id", "0")]])] ∧
    get_text (leafE "cid" "A") = "A" ∧
    get_text (Elem.mk "claim" [] "" "" (.econs (leafE "cid" "A") .enil)) ≠ "P" := by
  exact ⟨rfl, rfl, by decide⟩

/-- C4 (amended): with a configured pk sub-path, the natural key is
resolved once per matched element against the tree context handed to
process_path — the parent matched element for nested bindings, the
document root at top level — which coincides with the enclosing matched
element only for top-level bindings; when at least one element matches
the entity path, exactly one element must match the pk path relative to
that context or the current document's processing fails with the pk
assertion; on success all records of the binding share that one
context-resolved id (when its text is nonempty). -/
theorem C4_pk_context :
    (∀ fuel tree path n pkp fields record pe ppk t e restE,
      resolveElems tree path = e :: restE →
      (∀ epk, nodeFindall tree pkp ≠ [epk]) →
      process_path (fuel + 2) tree path (.entity n (some pkp) fields)
        record pe ppk t = (.error .pkAssert, t)) ∧
    (∀ fuel tree n pkp fields elems pe ppk t t' epk,
      elems_loop fuel tree n (some pkp) fields elems pe ppk t = (.ok (), t') →
      nodeFindall tree pkp = [epk] →
      get_text epk ≠ "" →
      n ∉ namesF fields →
      "id" ∉ scalarColsF fields →
      (truthy ppk = true → parentIdKey pe ≠ "id") →
      ∃ newRecs, lookupD t' n [] = lookupD t n [] ++ newRecs ∧
        newRecs.length = elems.length ∧
        ∀ r ∈ newRecs, getAssoc r "id" = some (get_text epk)) := by
  constructor
  · intro fuel tree path n pkp fields record pe ppk t e restE hE hno
    have hpk := get_pk_not_single tree pkp hno
    simp [process_path, hE, elems_loop, hpk]
  · intro fuel tree n pkp fields elems pe ppk t t' epk h hfind hne hn hsc hlink
    have hpk := get_pk_single tree pkp epk hfind
    obtain ⟨newRecs, hlook, hlen, hprops⟩ :=
      elems_loop_spec elems fuel tree n (some pkp) fields pe ppk t t' h hn
    refine ⟨newRecs, hlook, hlen, ?_⟩
    intro r hr
    obtain ⟨⟨i, hi⟩, hget⟩ := List.mem_iff_get.mp hr
    have htr : truthy (some (get_text epk)) = true := by
      simp [truthy, hne]
    have := (hprops (some (get_text epk)) hpk i hi).1 hsc hlink
    rw [hget] at this
    simpa [htr] using this

/-- C4 witness: resolving pk "cid" against a parent context with a
single cid child of text "P" makes every record of the binding carry id
"P". -/
theorem C4_witness :
    ∃ newRecs,
      lookupD [("claim", [[("id", "P")], [("id", "P")]])] "claim" [] =
        lookupD ([] : Tables) "claim" [] ++ newRecs ∧
      newRecs.length = [leafE "claim" "x", leafE "claim" "y"].length ∧
      ∀ r ∈ newRecs, getAssoc r "id" = some (get_text (leafE "cid" "P")) :=
  C4_pk_context.2 5
    (.node (Elem.mk "doc" [] "" "" (.econs (leafE "cid" "P") .enil)))
    "claim" ["cid"] .fnil [leafE "claim" "x", leafE "claim" "y"] none none
    [] [("claim", [[("id", "P")], [("id", "P")]])] (leafE "cid" "P")
    rfl rfl (by decide) (by decide) (by decide) (by simp [truthy])

/-- C8 counterexample: a nested entity binding with the same table name
"T" as its parent: the parent's synthetic id is computed while the table
has 0 records, the child is then appended (id "0"), and the parent is
appended afterwards — when the table already has 1 record — also with id
"0".  The id is not the count at the moment of insertion, and the two
synthetic ids in one table collide. -/
theorem C8_counterexample :
    (process_doc_entries
      [(["a"], .entity "T" none (.fcons ["b"] (.entity "T" none .fnil) .fnil))]
      (Elem.mk "a" [] "" "" (.econs (leafE "b" "") .enil)) 9 []).2 =
      [("T", [[("id", "0")], [("id", "0")]])] := by
  exact rfl

/-- C8 (amended): for an entity binding with no configured pk, each
record's id is the decimal of the entity table's record count at the
moment the id is assigned — before the binding's sub-fields are
processed — not at the moment of insertion; when no binding nested
beneath it targets the same table (and no scalar field overwrites "id"),
assignment-time and insertion-time counts coincide, the ids of the
records produced by one loop are the consecutive decimals
len, len+1, ..., and they are pairwise distinct. -/
theorem C8_synthetic_ids :
    ∀ fuel tree n fields elems pe ppk t t',
      elems_loop fuel tree n none fields elems pe ppk t = (.ok (), t') →
      n ∉ namesF fields →
      "id" ∉ scalarColsF fields →
      (truthy ppk = true → parentIdKey pe ≠ "id") →
      ∃ newRecs,
        lookupD t' n [] = lookupD t n [] ++ newRecs ∧
        newRecs.length = elems.length ∧
        (∀ i (hi : i < newRecs.length),
          getAssoc (newRecs.get ⟨i, hi⟩) "id" =
            some (natToDec ((lookupD t n []).length + i))) ∧
        ∀ i j (hi : i < newRecs.length) (hj : j < newRecs.length), i ≠ j →
          getAssoc (newRecs.get ⟨i, hi⟩) "id" ≠
            getAssoc (newRecs.get ⟨j, hj⟩) "id" := by
  intro fuel tree n fields elems pe ppk t t' h hn hsc hlink
  obtain ⟨newRecs, hlook, hlen, hprops⟩ :=
    elems_loop_spec elems fuel tree n none fields pe ppk t t' h hn
  have hids : ∀ i (hi : i < newRecs.length),
      getAssoc (newRecs.get ⟨i, hi⟩) "id" =
        some (natToDec ((lookupD t n []).length + i)) := by
    intro i hi
    have := (hprops none rfl i hi).1 hsc hlink
    simpa [truthy] using this
  refine ⟨newRecs, hlook, hlen, hids, ?_⟩
  intro i j hi hj hij heq
  rw [hids i hi, hids j hj] at heq
  injection heq with heq
  have := natToDec_inj heq
  omega

/-- C8 witness: two matched elements of a pk-less binding get the
distinct consecutive synthetic ids "0" and "1". -/
theorem C8_witness :
    ∃ newRecs,
      lookupD [("T", [[("id", "0")], [("id", "1")]])] "T" [] =
        lookupD ([] : Tables) "T" [] ++ newRecs ∧
      newRecs.length = [leafE "e" "", leafE "e" ""].length ∧
      (∀ i (hi : i < newRecs.length),
        getAssoc (newRecs.get ⟨i, hi⟩) "id" =
          some (natToDec ((lookupD ([] : Tables) "T" []).length + i))) ∧
      ∀ i j (hi : i < newRecs.length) (hj : j < newRecs.length), i ≠ j →
        getAssoc (newRecs.get ⟨i, hi⟩) "id" ≠
          getAssoc (newRecs.get ⟨j, hj⟩) "id" :=
  C8_synthetic_ids 5 (.node (leafE "d" "")) "T" .fnil
    [leafE "e" "", leafE "e" ""] none none []
    [("T", [[("id", "0")], [("id", "1")]])] rfl
    (by decide) (by decide) (by simp [truthy])

theorem mem_firstDedupAux :
    ∀ (l seen : List String) (k : String),
      k ∈ firstDedupAux seen l ↔ (k ∈ l ∧ k ∉ seen) := by
  intro l
  induction l with
  | nil => intro seen k; simp [firstDedupAux]
  | cons x xs ih =>
    intro seen k
    by_cases hx : x ∈ seen
    · simp only [firstDedupAux, if_pos hx, ih]
      constructor
      · rintro ⟨h1, h2⟩
        exact ⟨List.mem_cons_of_mem _ h1, h2⟩
      · rintro ⟨h1, h2⟩
        rcases List.mem_cons.mp h1 with h3 | h3
        · subst h3; exact absurd hx h2
        · exact ⟨h3, h2⟩
    · simp only [firstDedupAux, if_neg hx]
      constructor
      · intro h
        rcases List.mem_cons.mp h with h1 | h1
        · subst h1
          exact ⟨by simp, hx⟩
        · have := (ih (x :: seen) k).mp h1
          refine ⟨List.mem_cons_of_mem _ this.1, ?_⟩
          intro hk
          exact this.2 (List.mem_cons_of_mem _ hk)
      · rintro ⟨h1, h2⟩
        rcases List.mem_cons.mp h1 with h3 | h3
        · subst h3; simp
        · by_cases hxk : k = x
          · subst hxk; simp
          · refine List.mem_cons_of_mem _ ((ih (x :: seen) k).mpr ⟨h3, ?_⟩)
            intro hk
            rcases List.mem_cons.mp hk with h4 | h4
            · exact hxk h4
            · exact h2 h4

theorem mem_firstDedup {l : List String} {k : String} (h : k ∈ l) :
    k ∈ firstDedup l :=
  (mem_firstDedupAux l [] k).mpr ⟨h, by simp⟩

theorem addFieldList_fst :
    ∀ (fields : Fields) (fns : List String) (pe : Option String) (fm : FieldMap),
      (addFieldList fields fns pe fm).1 = fns ++ resolverColsF fields
  | .fnil, fns, pe, fm => by simp [addFieldList, resolverColsF]
  | .fcons sp (.scalar d) rest, fns, pe, fm => by
    simp only [addFieldList, addFieldnames, resolverColsF]
    rw [addFieldList_fst rest]
    simp
  | .fcons sp (.entity n pk fields') rest, fns, pe, fm => by
    simp only [addFieldList, addFieldnames, resolverColsF]
    rw [addFieldList_fst rest]

/-- Monotonicity of the resolver: add_fieldnames only ever extends the
per-table column sets. -/
theorem addFieldnames_mono : ∀ s : Nat,
    (∀ cfg : Config, sizeOf cfg ≤ s →
      ∀ fns pe fm, fmLe fm (addFieldnames cfg fns pe fm).2) ∧
    (∀ fields : Fields, sizeOf fields ≤ s →
      ∀ fns pe fm, fmLe fm (addFieldList fields fns pe fm).2) := by
  intro s
  induction s using Nat.strong_induction_on with
  | _ s ih =>
    constructor
    · intro cfg hs fns pe fm
      cases cfg with
      | scalar d =>
        intro nm k hk
        simpa [addFieldnames] using hk
      | entity n pk fields =>
        have hf : sizeOf fields < s := by
          have := Config.entity.sizeOf_spec n pk fields
          omega
        intro nm k hk
        have h1 : k ∈ lookupD (addFieldList fields
            ((if pk.isSome || pe.isSome then ["id"] else []) ++
              (match pe with | some p => [p ++ "_id"] | none => [])) (some n) fm).2
            nm [] :=
          (ih (sizeOf fields) hf).2 fields le_rfl _ (some n) fm nm k hk
        simp only [addFieldnames]
        by_cases hnm : nm = n
        · subst hnm
          rw [lookupD_setAssoc_self]
          exact mem_firstDedup (List.mem_append_left _ h1)
        · rw [lookupD_setAssoc_ne _ _ _ hnm]
          exact h1
    · intro fields hs fns pe fm
      cases fields with
      | fnil =>
        intro nm k hk
        simpa [addFieldList] using hk
      | fcons sp sc rest =>
        have hc : sizeOf sc < s := by
          have := Fields.fcons.sizeOf_spec sp sc rest
          omega
        have hr : sizeOf rest < s := by
          have := Fields.fcons.sizeOf_spec sp sc rest
          omega
        intro nm k hk
        have h1 := (ih (sizeOf sc) hc).1 sc le_rfl fns pe fm nm k hk
        have h2 := (ih (sizeOf rest) hr).2 rest le_rfl
          (addFieldnames sc fns pe fm).1 pe (addFieldnames sc fns pe fm).2 nm k h1
        simpa [addFieldList] using h2

/-- Coverage is monotone in the fieldname map. -/
theorem covered_mono : ∀ s : Nat,
    (∀ cfg : Config, sizeOf cfg ≤ s →
      ∀ F F' pe, fmLe F F' → coveredC F pe cfg → coveredC F' pe cfg) ∧
    (∀ fields : Fields, sizeOf fields ≤ s →
      ∀ F F' pe, fmLe F F' → coveredF F pe fields → coveredF F' pe fields) := by
  intro s
  induction s using Nat.strong_induction_on with
  | _ s ih =>
    constructor
    · intro cfg hs F F' pe hle hcov
      cases cfg with
      | scalar d =>
        intro nm hnm
        exact hle nm _ (hcov nm hnm)
      | entity n pk fields =>
        have hf : sizeOf fields < s := by
          have := Config.entity.sizeOf_spec n pk fields
          omega
        obtain ⟨h1, h2, h3⟩ := hcov
        exact ⟨hle n _ h1, fun p hp => hle n _ (h2 p hp),
          (ih (sizeOf fields) hf).2 fields le_rfl F F' (some n) hle h3⟩
    · intro fields hs F F' pe hle hcov
      cases fields with
      | fnil => trivial
      | fcons sp sc rest =>
        have hc : sizeOf sc < s := by
          have := Fields.fcons.sizeOf_spec sp sc rest
          omega
        have hr : sizeOf rest < s := by
          have := Fields.fcons.sizeOf_spec sp sc rest
          omega
        obtain ⟨h1, h2⟩ := hcov
        exact ⟨(ih (sizeOf sc) hc).1 sc le_rfl F F' pe hle h1,
          (ih (sizeOf rest) hr).2 rest le_rfl F F' pe hle h2⟩

theorem engineCol_eq_resolverCol {d : String}
    (h : (!(strStartsWith d "|" && strContainsChar d ':')) = true) :
    engineCol d = resolverCol d := by
  by_cases hj : strStartsWith d "|"
  · have hc : strContainsChar d ':' = false := by
      cases hcc : strContainsChar d ':' with
      | false => rfl
      | true => simp [hj, hcc] at h
    simp [engineCol, resolverCol, hj, hc]
  · by_cases hc : strContainsChar d ':'
    · simp [engineCol, resolverCol, hj, hc]
    · simp [engineCol, resolverCol, hj, hc]

theorem mem_baseCols_id (pk : Option (List String)) (pe : Option String)
    (h : (pk.isSome || pe.isSome) = true) : "id" ∈ baseCols pk pe := by
  simp [baseCols, h]

theorem mem_baseCols_link (pk : Option (List String)) (p : String) :
    (p ++ "_id") ∈ baseCols pk (some p) := by
  simp [baseCols]

/-- After add_fieldnames processes an entity binding, the resulting
fieldname map covers that binding — provided no join directive in it
contains ":" and, when it has no parent, it has a configured pk. -/
theorem addFieldnames_covers : ∀ s : Nat,
    (∀ cfg : Config, sizeOf cfg ≤ s →
      ∀ n pk fields, cfg = .entity n pk fields →
      ∀ fns pe fm, joinColonFreeC cfg = true →
      (pe = none → pk.isSome) →
      coveredC (addFieldnames cfg fns pe fm).2 pe cfg) ∧
    (∀ fields : Fields, sizeOf fields ≤ s →
      ∀ n fns fm F, joinColonFreeF fields = true →
      fmLe (addFieldList fields fns (some n) fm).2 F →
      (∀ k ∈ resolverColsF fields, k ∈ lookupD F n []) →
      coveredF F (some n) fields) := by
  intro s
  induction s using Nat.strong_induction_on with
  | _ s ih =>
    constructor
    · intro cfg hs n pk fields hcfg fns pe fm hjc hpk
      subst hcfg
      have hf : sizeOf fields < s := by
        have := Config.entity.sizeOf_spec n pk fields
        omega
      have hjf : joinColonFreeF fields = true := by
        simpa [joinColonFreeC] using hjc
      have hid : "id" ∈ baseCols pk pe := by
        refine mem_baseCols_id pk pe ?_
        cases pe with
        | none => simp [hpk rfl]
        | some p => simp
      have hloc : (addFieldList fields (baseCols pk pe) (some n) fm).1 =
          baseCols pk pe ++ resolverColsF fields :=
        addFieldList_fst fields (baseCols pk pe) (some n) fm
      have hFMn : lookupD (addFieldnames (.entity n pk fields) fns pe fm).2 n [] =
          firstDedup
            (lookupD (addFieldList fields (baseCols pk pe) (some n) fm).2 n [] ++
              (addFieldList fields (baseCols pk pe) (some n) fm).1) := by
        simp only [addFieldnames]
        rw [lookupD_setAssoc_self]
      have hmem : ∀ k, k ∈ (addFieldList fields (baseCols pk pe) (some n) fm).1 →
          k ∈ lookupD (addFieldnames (.entity n pk fields) fns pe fm).2 n [] := by
        intro k hk
        rw [hFMn]
        exact mem_firstDedup (List.mem_append_right _ hk)
      refine ⟨?_, ?_, ?_⟩
      · exact hmem "id" (by rw [hloc]; exact List.mem_append_left _ hid)
      · intro p hp
        subst hp
        exact hmem (p ++ "_id")
          (by rw [hloc]; exact List.mem_append_left _ (mem_baseCols_link pk p))
      · refine (ih (sizeOf fields) hf).2 fields le_rfl n (baseCols pk pe) fm
          (addFieldnames (.entity n pk fields) fns pe fm).2 hjf ?_ ?_
        · intro nm k hk
          simp only [addFieldnames]
          by_cases hnm : nm = n
          · subst hnm
            rw [lookupD_setAssoc_self]
            exact mem_firstDedup (List.mem_append_left _ hk)
          · rw [lookupD_setAssoc_ne _ _ _ hnm]
            exact hk
        · intro k hk
          exact hmem k (by rw [hloc]; exact List.mem_append_right _ hk)
    · intro fields hs n fns fm F hjf hle hcols
      cases fields with
      | fnil => trivial
      | fcons sp sc rest =>
        have hc : sizeOf sc < s := by
          have := Fields.fcons.sizeOf_spec sp sc rest
          omega
        have hr : sizeOf rest < s := by
          have := Fields.fcons.sizeOf_spec sp sc rest
          omega
        have hj2 : joinColonFreeC sc = true ∧ joinColonFreeF rest = true := by
          simpa [joinColonFreeF, Bool.and_eq_true] using hjf
        have heq : (addFieldList (.fcons sp sc rest) fns (some n) fm).2 =
            (addFieldList rest (addFieldnames sc fns (some n) fm).1 (some n)
              (addFieldnames sc fns (some n) fm).2).2 := by
          simp [addFieldList]
        constructor
        · cases sc with
          | scalar d =>
            intro nm hnm
            injection hnm with hnm
            subst hnm
            have hdc : resolverCol d ∈ resolverColsF (.fcons sp (.scalar d) rest) := by
              simp [resolverColsF]
            have h2 := hcols _ hdc
            have hec : engineCol d = resolverCol d :=
              engineCol_eq_resolverCol (by simpa [joinColonFreeC] using hj2.1)
            rw [hec]
            exact h2
          | entity m mpk mfields =>
            have hcov1 : coveredC (addFieldnames (.entity m mpk mfields) fns
                (some n) fm).2 (some n) (.entity m mpk mfields) :=
              (ih (sizeOf (Config.entity m mpk mfields)) hc).1 _ le_rfl m mpk mfields
                rfl fns (some n) fm hj2.1 (by intro hno; simp at hno)
            have hle1 : fmLe (addFieldnames (.entity m mpk mfields) fns (some n) fm).2 F := by
              intro nm k hk
              refine hle nm k ?_
              rw [heq]
              exact (addFieldnames_mono (sizeOf rest)).2 rest le_rfl _ (some n) _ nm k hk
            exact (covered_mono (sizeOf (Config.entity m mpk mfields))).1 _ le_rfl
              _ F (some n) hle1 hcov1
        · refine (ih (sizeOf rest) hr).2 rest le_rfl n
            (addFieldnames sc fns (some n) fm).1
            (addFieldnames sc fns (some n) fm).2 F hj2.2 ?_ ?_
          · intro nm k hk
            refine hle nm k ?_
            rw [heq]
            exact hk
          · intro k hk
            refine hcols k ?_
            cases sc with
            | scalar d => simp [resolverColsF, hk]
            | entity m mpk mfields => simpa [resolverColsF] using hk

theorem fold_fieldnames_mono :
    ∀ (cfgs : List (List String × Config)) (fm : FieldMap),
      fmLe fm (cfgs.foldl (fun fm2 pc => (addFieldnames pc.2 [] none fm2).2) fm) := by
  intro cfgs
  induction cfgs with
  | nil => intro fm nm k hk; simpa using hk
  | cons pc0 rest ih =>
    intro fm nm k hk
    simp only [List.foldl_cons]
    exact ih _ nm k
      ((addFieldnames_mono (sizeOf pc0.2)).1 pc0.2 le_rfl [] none fm nm k hk)

/-- Every top-level mapping entry is covered by the final get_fieldnames
output (under the two well-formedness conditions). -/
theorem get_fieldnames_covers :
    ∀ (cfgs : List (List String × Config)) (fm0 : FieldMap),
      (∀ pc ∈ cfgs, joinColonFreeC pc.2 = true) →
      (∀ pc ∈ cfgs, topEntityPk pc.2 = true) →
      ∀ pc ∈ cfgs,
        coveredC (cfgs.foldl (fun fm2 pc2 => (addFieldnames pc2.2 [] none fm2).2) fm0)
          none pc.2 := by
  intro cfgs
  induction cfgs with
  | nil =>
    intro fm0 _ _ pc hpc
    simp at hpc
  | cons pc0 rest ih =>
    intro fm0 ha hb pc hpc
    rcases List.mem_cons.mp hpc with h1 | h1
    · subst h1
      cases hc0 : pc.2 with
      | scalar d =>
        intro nm hnm
        simp at hnm
      | entity n pk fields =>
        have hcov1 : coveredC (addFieldnames pc.2 [] none fm0).2 none pc.2 := by
          rw [hc0]
          refine (addFieldnames_covers (sizeOf (Config.entity n pk fields))).1 _
            le_rfl n pk fields rfl [] none fm0 ?_ ?_
          · rw [← hc0]
            exact ha pc (List.mem_cons_self pc rest)
          · intro _
            have := hb pc (List.mem_cons_self pc rest)
            rw [hc0] at this
            simpa [topEntityPk] using this
        have hlef : fmLe (addFieldnames pc.2 [] none fm0).2
            (rest.foldl (fun fm2 pc2 => (addFieldnames pc2.2 [] none fm2).2)
              (addFieldnames pc.2 [] none fm0).2) :=
          fold_fieldnames_mono rest _
        have := (covered_mono (sizeOf pc.2)).1 pc.2 le_rfl _ _ none hlef hcov1
        rw [hc0] at this
        simp only [List.foldl_cons]
        rw [hc0]
        exact this
    · have := ih (addFieldnames pc0.2 [] none fm0).2
        (fun q hq => ha q (List.mem_cons_of_mem _ hq))
        (fun q hq => hb q (List.mem_cons_of_mem _ hq)) pc h1
      simpa [List.foldl_cons] using this

theorem tablesOK_lookup {F : FieldMap} {t : Tables} (h : tablesOK F t)
    (n : String) : ∀ r ∈ lookupD t n [], ∀ k ∈ keysOf r, k ∈ lookupD F n [] := by
  intro r hr k hk
  unfold lookupD at hr
  cases hg : getAssoc t n with
  | none => rw [hg] at hr; simp at hr
  | some rs =>
    rw [hg] at hr
    simp at hr
    exact h (n, rs) (getAssoc_mem hg) r hr k hk

theorem tablesOK_appendTable {F : FieldMap} {t : Tables} {n : String} {r : Record}
    (h : tablesOK F t) (hr : ∀ k ∈ keysOf r, k ∈ lookupD F n []) :
    tablesOK F (appendTable t n r) := by
  intro p hp r' hr' k hk
  rcases mem_setAssoc hp with h1 | h1
  · subst h1
    rcases List.mem_append.mp hr' with h2 | h2
    · exact tablesOK_lookup h n r' h2 k hk
    · simp at h2
      subst h2
      exact hr k hk
  · exact h p h1 r' hr' k hk

theorem keysOf_initRecord (pkv ppk pe : Option String) (L : Nat) :
    ∀ k ∈ keysOf (initRecord pkv ppk pe L),
      k = "id" ∨ (truthy ppk = true ∧ k = parentIdKey pe) := by
  intro k hk
  by_cases hp : truthy ppk = true
  · simp only [initRecord, hp, if_true] at hk
    by_cases hk2 : truthy pkv = true
    · simp only [hk2, if_true] at hk
      rcases keysOf_setAssoc hk with h1 | h1
      · exact Or.inr ⟨hp, h1⟩
      · rcases keysOf_setAssoc h1 with h2 | h2
        · exact Or.inl h2
        · simp [keysOf] at h2
    · simp only [hk2, if_false] at hk
      rcases keysOf_setAssoc hk with h1 | h1
      · exact Or.inr ⟨hp, h1⟩
      · rcases keysOf_setAssoc h1 with h2 | h2
        · exact Or.inl h2
        · simp [keysOf] at h2
  · have hp' : truthy ppk = false := by
      cases hb : truthy ppk with
      | true => exact absurd hb hp
      | false => rfl
    simp only [initRecord, hp', if_false, Bool.false_eq_true] at hk
    by_cases hk2 : truthy pkv = true
    · simp only [hk2, if_true] at hk
      rcases keysOf_setAssoc hk with h1 | h1
      · exact Or.inl h1
      · simp [keysOf] at h1
    · simp only [hk2, if_false] at hk
      rcases keysOf_setAssoc hk with h1 | h1
      · exact Or.inl h1
      · simp [keysOf] at h1

/-- The scalar branch extends the record's keys by at most its
engine-resolved column. -/
theorem process_path_scalar_record (f : Nat) (tree : XNode) (path : List String)
    (d : String) (record : Record) (pe ppk : Option String) (t : Tables)
    (r' : Record)
    (h : (process_path (f + 1) tree path (.scalar d) record pe ppk t).1 = .ok r') :
    ∀ k ∈ keysOf r', k ∈ keysOf record ∨ k = engineCol d := by
  intro k hk
  simp only [process_path] at h
  cases hE : resolveElems tree path with
  | nil =>
    rw [hE] at h
    simp at h
    rw [← h] at hk
    exact Or.inl hk
  | cons e restE =>
    rw [hE] at h
    by_cases hj : strStartsWith d "|"
    · simp [hj] at h
      rw [← h] at hk
      rcases keysOf_setAssoc hk with h1 | h1
      · exact Or.inr (by simp [engineCol, hj, h1])
      · exact Or.inl h1
    · by_cases hre : restE.isEmpty
      · by_cases hcc : strContainsChar d ':'
        · simp [hj, hre, hcc] at h
          rw [← h] at hk
          rcases keysOf_setAssoc hk with h1 | h1
          · refine Or.inr ?_
            rw [h1]
            simp [engineCol, hj, hcc]
          · exact Or.inl h1
        · simp [hj, hre, hcc] at h
          rw [← h] at hk
          rcases keysOf_setAssoc hk with h1 | h1
          · exact Or.inr (by simp [engineCol, hj, hcc, h1])
          · exact Or.inl h1
      · simp [hj, hre] at h

/-- Coverage master for the engine: starting from tables whose columns
are all covered by F, processing any covered mapping node preserves
that, and on success extends the record's keys only within F's entry for
the enclosing table. -/
theorem engine_coverage (F : FieldMap) : ∀ fuel : Nat,
    (∀ tree path cfg record pe ppk t,
      coveredC F pe cfg →
      (truthy ppk = true → ∃ q, pe = some q) →
      tablesOK F t →
      tablesOK F (process_path fuel tree path cfg record pe ppk t).2 ∧
      (∀ r' nm, (process_path fuel tree path cfg record pe ppk t).1 = .ok r' →
        pe = some nm →
        ∀ k ∈ keysOf r', k ∈ keysOf record ∨ k ∈ lookupD F nm [])) ∧
    (∀ tree n pk fields elems pe ppk t,
      "id" ∈ lookupD F n [] →
      (∀ q, pe = some q → (q ++ "_id") ∈ lookupD F n []) →
      coveredF F (some n) fields →
      (truthy ppk = true → ∃ q, pe = some q) →
      tablesOK F t →
      tablesOK F (elems_loop fuel tree n pk fields elems pe ppk t).2) ∧
    (∀ entity fields elem record pkv t,
      coveredF F (some entity) fields →
      tablesOK F t →
      tablesOK F (fields_loop fuel entity fields elem record pkv t).2 ∧
      (∀ r', (fields_loop fuel entity fields elem record pkv t).1 = .ok r' →
        ∀ k ∈ keysOf r', k ∈ keysOf record ∨ k ∈ lookupD F entity [])) := by
  intro fuel
  induction fuel with
  | zero =>
    refine ⟨?_, ?_, ?_⟩
    · intro tree path cfg record pe ppk t _ _ hok
      refine ⟨hok, ?_⟩
      intro r' nm h
      simp [process_path] at h
    · intro tree n pk fields elems pe ppk t _ _ _ _ hok
      exact hok
    · intro entity fields elem record pkv t _ hok
      refine ⟨hok, ?_⟩
      intro r' h
      simp [fields_loop] at h
  | succ f ih =>
    obtain ⟨ihP, ihE, ihF⟩ := ih
    refine ⟨?_, ?_, ?_⟩
    · intro tree path cfg record pe ppk t hcov htr hok
      cases cfg with
      | scalar d =>
        refine ⟨by rw [process_path_scalar_tables]; exact hok, ?_⟩
        intro r' nm h hpe k hk
        rcases process_path_scalar_record f tree path d record pe ppk t r' h k hk
          with h1 | h1
        · exact Or.inl h1
        · subst h1
          exact Or.inr (hcov nm hpe)
      | entity n pk fields =>
        obtain ⟨hid, hlink, hcf⟩ := hcov
        constructor
        · simp only [process_path]
          rcases hel : elems_loop f tree n pk fields (resolveElems tree path)
              pe ppk t with ⟨res1, t1⟩
          have ht1 : tablesOK F t1 := by
            have := ihE tree n pk fields (resolveElems tree path) pe ppk t
              hid hlink hcf htr hok
            rw [hel] at this
            exact this
          cases res1 with
          | ok u => exact ht1
          | error er => exact ht1
        · intro r' nm h hpe k hk
          simp only [process_path] at h
          rcases hel : elems_loop f tree n pk fields (resolveElems tree path)
              pe ppk t with ⟨res1, t1⟩
          rw [hel] at h
          cases res1 with
          | ok u =>
            simp at h
            rw [← h] at hk
            exact Or.inl hk
          | error er => simp at h
    · intro tree n pk fields elems pe ppk t hid hlink hcf htr hok
      cases elems with
      | nil => exact hok
      | cons e rest =>
        rcases hpk : get_pk tree pk with er | pkv
        · simp [elems_loop, hpk]
          exact hok
        · simp only [elems_loop, hpk]
          rcases hfl : fields_loop f n fields e
              (initRecord pkv ppk pe (lookupD t n []).length) pkv t
            with ⟨res1, t1⟩
          have hinit : ∀ k ∈ keysOf (initRecord pkv ppk pe (lookupD t n []).length),
              k ∈ lookupD F n [] := by
            intro k hk
            rcases keysOf_initRecord pkv ppk pe (lookupD t n []).length k hk
              with h1 | ⟨h1, h2⟩
            · subst h1; exact hid
            · obtain ⟨q, hq⟩ := htr h1
              subst hq
              subst h2
              exact hlink q rfl
          have hff := ihF n fields e
            (initRecord pkv ppk pe (lookupD t n []).length) pkv t hcf hok
          have ht1 : tablesOK F t1 := by
            have := hff.1
            rw [hfl] at this
            exact this
          cases res1 with
          | ok r3 =>
            have hr3 : ∀ k ∈ keysOf r3, k ∈ lookupD F n [] := by
              intro k hk
              have := hff.2 r3
              rw [hfl] at this
              rcases this rfl k hk with h1 | h1
              · exact hinit k h1
              · exact h1
            show tablesOK F
              (elems_loop f tree n pk fields rest pe ppk (appendTable t1 n r3)).2
            exact ihE tree n pk fields rest pe ppk (appendTable t1 n r3)
              hid hlink hcf htr (tablesOK_appendTable ht1 hr3)
          | error er => exact ht1
    · intro entity fields elem record pkv t hcov hok
      cases fields with
      | fnil =>
        refine ⟨hok, ?_⟩
        intro r' h k hk
        simp [fields_loop] at h
        rw [← h] at hk
        exact Or.inl hk
      | fcons sp sc rest =>
        obtain ⟨hcovC, hcovF⟩ := hcov
        have htr2 : truthy pkv = true → ∃ q, (some entity : Option String) = some q :=
          fun _ => ⟨entity, rfl⟩
        constructor
        · intro p hp r' hr' k hk
          simp only [fields_loop] at hp
          rcases hpp : process_path f (.node elem) sp sc record (some entity) pkv t
            with ⟨res1, t1⟩
          rw [hpp] at hp
          have ht1 : tablesOK F t1 := by
            have := (ihP (.node elem) sp sc record (some entity) pkv t
              hcovC htr2 hok).1
            rw [hpp] at this
            exact this
          cases res1 with
          | ok r1 =>
            exact (ihF entity rest elem r1 pkv t1 hcovF ht1).1 p hp r' hr' k hk
          | error er => exact ht1 p hp r' hr' k hk
        · intro r' h k hk
          simp only [fields_loop] at h
          rcases hpp : process_path f (.node elem) sp sc record (some entity) pkv t
            with ⟨res1, t1⟩
          rw [hpp] at h
          have ht1 : tablesOK F t1 := by
            have := (ihP (.node elem) sp sc record (some entity) pkv t
              hcovC htr2 hok).1
            rw [hpp] at this
            exact this
          cases res1 with
          | ok r1 =>
            have hk1 := (ihF entity rest elem r1 pkv t1 hcovF ht1).2 r' h k hk
            rcases hk1 with h1 | h1
            · have := (ihP (.node elem) sp sc record (some entity) pkv t
                hcovC htr2 hok).2 r1 entity
              rw [hpp] at this
              rcases this rfl rfl k h1 with h2 | h2
              · exact Or.inl h2
              · exact Or.inr h2
            · exact Or.inr h1
          | error er => simp at h

theorem process_doc_entries_coverage (F : FieldMap) :
    ∀ (entries : List (List String × Config)) (root : Elem) (fuel : Nat) (t : Tables),
      (∀ pc ∈ entries, coveredC F none pc.2) →
      tablesOK F t →
      tablesOK F (process_doc_entries entries root fuel t).2 := by
  intro entries
  induction entries with
  | nil => intro root fuel t _ hok; exact hok
  | cons pc0 rest ih =>
    intro root fuel t hcov hok
    obtain ⟨p0, c0⟩ := pc0
    simp only [process_doc_entries]
    rcases hpp : process_path fuel (.root root) p0 c0 [] none none t
      with ⟨res1, t1⟩
    have ht1 : tablesOK F t1 := by
      have := ((engine_coverage F fuel).1 (.root root) p0 c0 [] none none t
        (hcov (p0, c0) (List.mem_cons_self _ _))
        (by intro h; simp [truthy] at h) hok).1
      rw [hpp] at this
      exact this
    cases res1 with
    | ok u =>
      exact ih root fuel t1 (fun pc hpc => hcov pc (List.mem_cons_of_mem _ hpc)) ht1
    | error er => exact ht1

/-- C7 counterexample: for a top-level entity binding with no configured
pk the engine writes a synthetic id column into every record of the
table, but get_fieldnames' entry for the table does not contain "id" —
the claimed superset fails (and writing the CSV through csv.DictWriter
with these fieldnames would reject the rows). -/
theorem C7_counterexample :
    (process_doc_entries
      [(["q"], .entity "doc" none (.fcons ["w"] (.scalar "name") .fnil))]
      (Elem.mk "doc" [] "" "" (.econs (leafE "w" "N") .enil)) 9 []).2 =
      [("doc", [[("id", "0"), ("name", "N")]])] ∧
    get_fieldnames
      [(["q"], .entity "doc" none (.fcons ["w"] (.scalar "name") .fnil))] =
      [("doc", ["name"])] ∧
    "id" ∉ (["name"] : List String) := by
  exact ⟨rfl, rfl, by decide⟩

/-- C7 (amended): the Column-Order Resolver's output depends only on the
mapping (in this embedding get_fieldnames is a function of the
configuration alone, so invariance under documents and their order is
structural), and — provided no join-form directive contains ":" and
every top-level entity binding has a configured pk — it contains, as a
set, every column the Extraction Engine ever writes into any record of
any table for any document: starting from any covered table set,
processing an arbitrary document keeps every record's every column
inside the resolver's entry for its table.  Without the pk condition the
id column of a top-level pk-less entity is written by the engine but
missing from the resolver's output, and a join directive containing ":"
is resolved to different columns by the two components. -/
theorem C7_fieldnames_cover
    (cfgs : List (List String × Config)) (root : Elem) (fuel : Nat) (t : Tables)
    (ha : ∀ pc ∈ cfgs, joinColonFreeC pc.2 = true)
    (hb : ∀ pc ∈ cfgs, topEntityPk pc.2 = true)
    (hok : tablesOK (get_fieldnames cfgs) t) :
    tablesOK (get_fieldnames cfgs) (process_doc_entries cfgs root fuel t).2 := by
  refine process_doc_entries_coverage (get_fieldnames cfgs) cfgs root fuel t ?_ hok
  intro pc hpc
  exact get_fieldnames_covers cfgs [] ha hb pc hpc

/-- C7 witness: a well-formed mapping (top-level entity with pk, no
join/colon directive) run on the sample document keeps every written
column inside the resolved fieldnames. -/
theorem C7_witness :
    tablesOK
      (get_fieldnames [(["doc"], .entity "doc" (some ["id"])
        (.fcons ["title"] (.scalar "title") .fnil))])
      (process_doc_entries [(["doc"], .entity "doc" (some ["id"])
        (.fcons ["title"] (.scalar "title") .fnil))] sampleTree 9 []).2 :=
  C7_fieldnames_cover _ sampleTree 9 [] (by decide) (by decide)
    (by intro p hp; simp at hp)
